import Mathlib

set_option maxHeartbeats 1000000

/-!
Shallow embedding of the 3D maze repository core:
  * maze_gen.py : randomized-DFS "perfect maze" carving on odd cells,
    goal selection by maximal Manhattan distance;
  * env.py : the RL environment (bounds/wall checks, step dynamics,
    reward shaping, termination, 18-value observation encoding).

Modelling conventions:
  * coordinates are `Int` triples (candidate positions may be negative);
  * the dense 0/1 voxel grid is represented by its dimensions together
    with the finite set of FREE coordinates (a cell is a wall iff it is
    not in the set);
  * Python's global pseudorandom generator (library code, external to
    the repository) is abstracted as a stream `Nat → Nat` of draws;
    `random.shuffle` becomes a stream-driven selection shuffle, and
    `random.seed(s)` replaces the ambient stream by a fixed function of
    the seed;
  * real-valued rewards and observations are modelled over `ℚ`;
  * the Python `IndexError` raised by `grid[1][1][1] = 0` on degenerate
    dimensions is modelled by `generate_maze` returning `none`.
-/

abbrev V3 := Int × Int × Int

/-- Manhattan distance, `Maze3DEnv._dist` in env.py (integer-valued). -/
def dist3 (a b : V3) : Nat :=
  (a.1 - b.1).natAbs + (a.2.1 - b.2.1).natAbs + (a.2.2 - b.2.2).natAbs

/-- Componentwise addition of positions / move vectors. -/
def vadd3 (a b : V3) : V3 := (a.1 + b.1, a.2.1 + b.2.1, a.2.2 + b.2.2)

/-! ## maze_gen.py -/

/-- The six two-step deltas used by `_neighbors_2step`. -/
def DELTAS2 : List V3 := [(2,0,0), (-2,0,0), (0,2,0), (0,-2,0), (0,0,2), (0,0,-2)]

/-- Translation of `_neighbors_2step`: the two-step axis neighbours of
`(x,y,z)` whose coordinates stay in the interior range `[1, dim-2]`. -/
def neighbors_2step (x y z sx sy sz : Int) : List V3 :=
  DELTAS2.filterMap (fun d =>
    let n : V3 := (x + d.1, y + d.2.1, z + d.2.2)
    if 1 ≤ n.1 ∧ n.1 < sx - 1 ∧ 1 ≤ n.2.1 ∧ n.2.1 < sy - 1 ∧
       1 ≤ n.2.2 ∧ n.2.2 < sz - 1
    then some n else none)

/-- Model of `random.shuffle`: a permutation of the input list driven by
the abstract stream `σ` of pseudorandom draws starting at index `k`.
The first component of fuel is the list length at the call site, so the
fuel never runs out on real calls; a fuel-exhausted call returns the
list unchanged (still a permutation). -/
def shuffleWith (σ : Nat → Nat) : Nat → Nat → List V3 → List V3
  | _, _, [] => []
  | 0, _, l => l
  | fuel + 1, k, x :: xs =>
    let l := x :: xs
    let i := σ k % l.length
    l.getD i x :: shuffleWith σ fuel (k + 1) (l.eraseIdx i)

/-- State of the carving loop of `generate_maze`: the set of FREE cells
(the zeros written into `grid`), the visited set, the DFS stack, and the
index of the next pseudorandom draw. -/
structure CarveState where
  free : Finset V3
  visited : Finset V3
  stack : List V3
  ctr : Nat
deriving DecidableEq

/-- One-step-at-a-time translation of the `while stack:` loop of
`generate_maze`: inspect the top of the stack, shuffle its two-step
neighbours, carve towards the first unvisited one (freeing the wall
midpoint and the neighbour, marking it visited, pushing it), else pop. -/
def carveSteps (sx sy sz : Int) (σ : Nat → Nat) : Nat → CarveState → CarveState
  | 0, S => S
  | fuel + 1, S =>
    match S.stack with
    | [] => S
    | c :: rest =>
      let nbrs := neighbors_2step c.1 c.2.1 c.2.2 sx sy sz
      let shuffled := shuffleWith σ nbrs.length S.ctr nbrs
      match shuffled.find? (fun n => decide (n ∉ S.visited)) with
      | some n =>
        let w : V3 := ((c.1 + n.1) / 2, (c.2.1 + n.2.1) / 2, (c.2.2 + n.2.2) / 2)
        carveSteps sx sy sz σ fuel
          ⟨insert n (insert w S.free), insert n S.visited, n :: S.stack, S.ctr + 6⟩
      | none =>
        carveSteps sx sy sz σ fuel ⟨S.free, S.visited, rest, S.ctr + 6⟩

/-- The interior odd-or-even cells the carving can ever visit:
all coordinates in `[1, dim-2]`. -/
def interiorCells (sx sy sz : Int) : Finset V3 :=
  Finset.Icc 1 (sx - 2) ×ˢ Finset.Icc 1 (sy - 2) ×ˢ Finset.Icc 1 (sz - 2)

/-- Fuel sufficient for the carving loop to drain its stack (each
iteration either newly visits an interior cell or pops the stack). -/
def carveFuel (sx sy sz : Int) : Nat := 2 * (interiorCells sx sy sz).card + 1

/-- The carving loop run to completion from the initial state of
`generate_maze` (start cell `(1,1,1)` freed, visited, and pushed). -/
def carveLoop (sx sy sz : Int) (σ : Nat → Nat) : CarveState :=
  carveSteps sx sy sz σ (carveFuel sx sy sz)
    ⟨{(1,1,1)}, {(1,1,1)}, [(1,1,1)], 0⟩

/-- Translation of the odd-size coercion of `generate_maze`: even
dimensions are incremented by one. -/
def oddDim (s : Int) : Int := if s % 2 = 0 then s + 1 else s

/-- The goal-selection scan order of `generate_maze`: the triple loop
`for x in range(1, sx-1): for y ...: for z ...`. -/
def scanCells (sx sy sz : Int) : List V3 :=
  (List.range (sx - 2).toNat).flatMap (fun (xi : Nat) =>
    (List.range (sy - 2).toNat).flatMap (fun (yi : Nat) =>
      (List.range (sz - 2).toNat).map (fun (zi : Nat) =>
        ((xi : Int) + 1, (yi : Int) + 1, (zi : Int) + 1))))

/-- Accumulator step of the goal scan: keep the scanned FREE cell of
maximal Manhattan distance from the start (strict improvement only,
hence first-in-scan-order tie-break), starting from `(start, -1)`. -/
def goalStep (free : Finset V3) (start : V3) (acc : V3 × Int) (p : V3) : V3 × Int :=
  if p ∈ free then
    if (dist3 p start : Int) > acc.2 then (p, (dist3 p start : Int)) else acc
  else acc

/-- Goal selection of `generate_maze`: scan all interior cells in loop
order and pick the FREE cell of maximal Manhattan distance from start. -/
def pickGoal (free : Finset V3) (start : V3) (cells : List V3) : V3 :=
  (cells.foldl (goalStep free start) (start, -1)).1

/-- Stand-in for the stream of draws of Python's global generator after
`random.seed(s)`: an arbitrary but fixed concrete function of the seed
(the Mersenne Twister itself is library code outside the repository;
only that the stream is a function of the seed matters here). -/
def streamOfSeed (s : Int) : Nat → Nat :=
  fun n => (s.natAbs * 1103515245 + 12345 + n * 2654435761) % 2147483648

/-- Dense 0/1 voxel grid of `maze_gen.py`, represented by its dimensions
and the set of FREE (`0`) coordinates; every other in-range cell is a
wall (`1`). -/
structure Grid3 where
  sx : Int
  sy : Int
  sz : Int
  free : Finset V3
deriving DecidableEq

/-- Valid index of a cell of the dense grid. -/
def Grid3.validIdx (g : Grid3) (p : V3) : Prop :=
  0 ≤ p.1 ∧ p.1 < g.sx ∧ 0 ≤ p.2.1 ∧ p.2.1 < g.sy ∧ 0 ≤ p.2.2 ∧ p.2.2 < g.sz

instance (g : Grid3) (p : V3) : Decidable (g.validIdx p) := by
  unfold Grid3.validIdx; infer_instance

/-- The stream of draws `generate_maze` actually consumes: the effect of
the `if seed is not None: random.seed(seed)` line.  A present seed
replaces the ambient global stream `g` by `streamOfSeed s`. -/
def seedStream (seed : Option Int) (g : Nat → Nat) : Nat → Nat :=
  match seed with
  | some s => streamOfSeed s
  | none => g

/-- Translation of `generate_maze(sx, sy, sz, seed)`.  `g` is the
ambient stream of the global generator; a present seed replaces it by
`streamOfSeed seed` (the effect of `random.seed`).  Returns `none`
exactly when the write `grid[1][1][1] = 0` would raise `IndexError`,
i.e. when some odd-coerced dimension is below 2. -/
def generate_maze (sx0 sy0 sz0 : Int) (seed : Option Int) (g : Nat → Nat) :
    Option (Grid3 × V3 × V3) :=
  let σ := seedStream seed g
  let sx := oddDim sx0
  let sy := oddDim sy0
  let sz := oddDim sz0
  if 2 ≤ sx ∧ 2 ≤ sy ∧ 2 ≤ sz then
    let start : V3 := (1, 1, 1)
    let final := carveLoop sx sy sz σ
    let goal := pickGoal final.free start (scanCells sx sy sz)
    some (⟨sx, sy, sz, final.free⟩, start, goal)
  else none

/-! ## env.py -/

/-- The six unit moves of env.py, in the fixed order
`+X, -X, +Y, -Y, +Z, -Z`. -/
def DIRS : List V3 := [(1,0,0), (-1,0,0), (0,1,0), (0,-1,0), (0,0,1), (0,0,-1)]

/-- State of `Maze3DEnv`: configured (requested) dimensions, step limit,
seed policy, the owned grid, agent and goal positions, step counter and
last-move vector. -/
structure Maze3DEnv where
  sx : Int
  sy : Int
  sz : Int
  max_steps : Int
  seed : Option Int
  grid : Grid3
  agent : V3
  goal : V3
  steps : Int
  last_move : V3
deriving DecidableEq

/-- Translation of `Maze3DEnv._in_bounds`: the configured (requested)
dimensions bound the position on every axis. -/
def Maze3DEnv.in_bounds (e : Maze3DEnv) (p : V3) : Bool :=
  decide (0 ≤ p.1 ∧ p.1 < e.sx ∧ 0 ≤ p.2.1 ∧ p.2.1 < e.sy ∧
          0 ≤ p.2.2 ∧ p.2.2 < e.sz)

/-- Translation of `Maze3DEnv._is_wall`: out of bounds counts as wall,
otherwise the grid cell must be a wall (not FREE). -/
def Maze3DEnv.is_wall (e : Maze3DEnv) (p : V3) : Bool :=
  if e.in_bounds p then decide (p ∉ e.grid.free) else true

/-- Translation of `Maze3DEnv.__init__` (which immediately calls
`reset`): generate the maze from the configured dimensions and seed,
place the agent at the returned start, zero the counters.  `none` models
the exception propagating out of generation. -/
def Maze3DEnv.init (sx sy sz max_steps : Int) (seed : Option Int) (g : Nat → Nat) :
    Option Maze3DEnv :=
  match generate_maze sx sy sz seed g with
  | some (grid, start, goal) =>
    some ⟨sx, sy, sz, max_steps, seed, grid, start, goal, 0, (0, 0, 0)⟩
  | none => none

/-- Translation of `Maze3DEnv._obs`: the 18 observation values, as exact
rationals.  Layout: 6 danger flags in `DIRS` order, 6 strict goal-side
flags, 3 normalized goal offsets, 3 last-move components. -/
def Maze3DEnv.obs (e : Maze3DEnv) : List ℚ :=
  let danger := DIRS.map (fun d => if e.is_wall (vadd3 e.agent d) then (1 : ℚ) else 0)
  let goal_rel : List ℚ :=
    [ if e.goal.1 > e.agent.1 then 1 else 0,
      if e.goal.1 < e.agent.1 then 1 else 0,
      if e.goal.2.1 > e.agent.2.1 then 1 else 0,
      if e.goal.2.1 < e.agent.2.1 then 1 else 0,
      if e.goal.2.2 > e.agent.2.2 then 1 else 0,
      if e.goal.2.2 < e.agent.2.2 then 1 else 0 ]
  let dxn : ℚ := ((e.goal.1 - e.agent.1 : Int) : ℚ) / ((max 1 (e.sx - 1) : Int) : ℚ)
  let dyn : ℚ := ((e.goal.2.1 - e.agent.2.1 : Int) : ℚ) / ((max 1 (e.sy - 1) : Int) : ℚ)
  let dzn : ℚ := ((e.goal.2.2 - e.agent.2.2 : Int) : ℚ) / ((max 1 (e.sz - 1) : Int) : ℚ)
  danger ++ goal_rel ++ [dxn, dyn, dzn] ++
    [(e.last_move.1 : ℚ), (e.last_move.2.1 : ℚ), (e.last_move.2.2 : ℚ)]

/-- Translation of `Maze3DEnv.step`: increment the counter, coerce
out-of-range actions to 0, attempt the unit move (wall bump costs 0.20
and zeroes the last move), add the distance-shaping term, add the goal
bonus and terminal flags. -/
def Maze3DEnv.step (e : Maze3DEnv) (action : Int) : Maze3DEnv × ℚ × Bool :=
  let steps := e.steps + 1
  let reward0 : ℚ := -(1/100)
  let prev_dist := dist3 e.agent e.goal
  let a := if action < 0 ∨ 6 ≤ action then 0 else action
  let d := DIRS.getD a.toNat (0, 0, 0)
  let nxt := vadd3 e.agent d
  let moved := if e.is_wall nxt then ((e.agent, ((0 : Int), (0 : Int), (0 : Int))), reward0 - 20/100)
               else ((nxt, d), reward0)
  let agent := moved.1.1
  let last_move := moved.1.2
  let new_dist := dist3 agent e.goal
  let reward1 := moved.2 + ((prev_dist : ℚ) - (new_dist : ℚ)) * (10/100)
  let hit := decide (agent = e.goal)
  let reward2 := if hit then reward1 + 10 else reward1
  let done := hit || decide (e.max_steps ≤ steps)
  ({ e with agent := agent, last_move := last_move, steps := steps }, reward2, done)

/-- Default environment value (used only to deconstruct `Option`s of
concrete successful constructions in closed statements). -/
def defaultEnv : Maze3DEnv :=
  ⟨0, 0, 0, 0, none, ⟨0, 0, 0, ∅⟩, (0,0,0), (0,0,0), 0, (0,0,0)⟩

/-- The states the environment can actually be in: a freshly
constructed/reset environment, or the successor of a reachable state
under an arbitrary integer action. -/
inductive Reachable : Maze3DEnv → Prop where
  | init : ∀ sx sy sz ms seed g e, Maze3DEnv.init sx sy sz ms seed g = some e → Reachable e
  | step : ∀ e a, Reachable e → Reachable (e.step a).1

/-- Fixed pseudorandom stream used for concrete witness evaluations. -/
def sigma0 : Nat → Nat := fun _ => 0

/-! ## Path predicates (for the perfect-maze and reachability claims) -/

/-- Unit-step adjacency of grid cells. -/
def adjc (p q : V3) : Prop := dist3 p q = 1

instance (p q : V3) : Decidable (adjc p q) := by unfold adjc; infer_instance

/-- Simple path through FREE cells: nonempty vertex list starting at
`s`, ending at `t`, without repetitions, inside `f`, consecutive cells
unit-adjacent. -/
def IsPathIn (f : Finset V3) (s t : V3) (l : List V3) : Prop :=
  l.head? = some s ∧ l.getLast? = some t ∧ l.Nodup ∧
  (∀ p ∈ l, p ∈ f) ∧ l.Chain' adjc

/-- Concrete environment used by witnesses: requested dimensions 3×3×5
(a straight corridor maze with three FREE cells). -/
def envCorridor : Maze3DEnv := (Maze3DEnv.init 3 3 5 10 none sigma0).getD defaultEnv

/-- Concrete environment with even requested dimensions 2×2×2 (the
generated grid is 3×3×3). -/
def envEven : Maze3DEnv := (Maze3DEnv.init 2 2 2 10 none sigma0).getD defaultEnv

/-- Concrete environment whose maze has a single FREE cell, so the
agent starts on the goal: requested dimensions 3×3×3. -/
def envUnitMaze : Maze3DEnv :=
  ⟨3, 3, 3, 100, none, ⟨3, 3, 3, {(1,1,1)}⟩, (1,1,1), (1,1,1), 0, (0,0,0)⟩

/-- Cell with all three coordinates odd (a DFS "room" of the carving). -/
def OddCell (p : V3) : Prop := p.1 % 2 = 1 ∧ p.2.1 % 2 = 1 ∧ p.2.2 % 2 = 1

/-- Interior of the grid: all coordinates in `[1, dim-2]` (the range the
carving and the goal scan stay in). -/
def InInt (sx sy sz : Int) (p : V3) : Prop :=
  1 ≤ p.1 ∧ p.1 < sx - 1 ∧ 1 ≤ p.2.1 ∧ p.2.1 < sy - 1 ∧ 1 ≤ p.2.2 ∧ p.2.2 < sz - 1

/-- A carved wall cell: the midpoint of two visited rooms two apart on
one axis (both its axis neighbours on that axis are visited). -/
def IsCarvedWall (visited : Finset V3) (p : V3) : Prop :=
  ((p.1 - 1, p.2.1, p.2.2) ∈ visited ∧ (p.1 + 1, p.2.1, p.2.2) ∈ visited) ∨
  ((p.1, p.2.1 - 1, p.2.2) ∈ visited ∧ (p.1, p.2.1 + 1, p.2.2) ∈ visited) ∨
  ((p.1, p.2.1, p.2.2 - 1) ∈ visited ∧ (p.1, p.2.1, p.2.2 + 1) ∈ visited)

/-- Invariant of the carving loop: the visited cells are interior odd
rooms, every FREE cell is a visited room or a carved wall between two
visited rooms, the stack holds visited rooms, and every FREE cell has a
unique simple path to the start through FREE cells. -/
structure CarveInv (sx sy sz : Int) (S : CarveState) : Prop where
  start_free : ((1:Int),(1:Int),(1:Int)) ∈ S.free
  vis_free : S.visited ⊆ S.free
  vis_odd : ∀ p ∈ S.visited, OddCell p
  vis_int : ∀ p ∈ S.visited, InInt sx sy sz p
  free_int : ∀ p ∈ S.free, InInt sx sy sz p
  free_decomp : ∀ p ∈ S.free, p ∈ S.visited ∨ IsCarvedWall S.visited p
  stack_vis : ∀ p ∈ S.stack, p ∈ S.visited
  upaths : ∀ p ∈ S.free, ∃! l : List V3, IsPathIn S.free (1,1,1) p l

/-! # Theorems -/

/-- An `Option` known to be `some` equals `some` of any `getD` of it. -/
theorem opt_eq_some_getD {α : Type} (o : Option α) (d : α) (h : o.isSome = true) :
    o = some (o.getD d) := by
  cases o with
  | none => simp at h
  | some v => rfl

/-- Odd-coercion output is odd. -/
theorem oddDim_odd (s : Int) : oddDim s % 2 = 1 := by
  unfold oddDim; split <;> omega

/-- Odd-coercion is at least 2 exactly when the input is. -/
theorem oddDim_ge_two (s : Int) : 2 ≤ oddDim s ↔ 2 ≤ s := by
  unfold oddDim; split <;> omega

/-- Characterization of a successful `generate_maze` call. -/
theorem generate_maze_some {sx sy sz : Int} {seed : Option Int} {g : Nat → Nat}
    {grid : Grid3} {start goal : V3}
    (h : generate_maze sx sy sz seed g = some (grid, start, goal)) :
    start = (1,1,1) ∧
    grid.sx = oddDim sx ∧ grid.sy = oddDim sy ∧ grid.sz = oddDim sz ∧
    2 ≤ oddDim sx ∧ 2 ≤ oddDim sy ∧ 2 ≤ oddDim sz ∧
    grid.free = (carveLoop (oddDim sx) (oddDim sy) (oddDim sz) (seedStream seed g)).free ∧
    goal = pickGoal grid.free (1,1,1) (scanCells (oddDim sx) (oddDim sy) (oddDim sz)) := by
  simp only [generate_maze] at h
  split at h
  · rename_i hcond
    injection h with h1
    injection h1 with hg h2
    injection h2 with hs hgl
    subst hg hs hgl
    simp_all
  · exact absurd h (by simp)

/-- Characterization of a successful environment construction. -/
theorem init_some {sx sy sz ms : Int} {seed : Option Int} {g : Nat → Nat} {e : Maze3DEnv}
    (h : Maze3DEnv.init sx sy sz ms seed g = some e) :
    ∃ grid goal, generate_maze sx sy sz seed g = some (grid, (1,1,1), goal) ∧
      e = ⟨sx, sy, sz, ms, seed, grid, (1,1,1), goal, 0, (0,0,0)⟩ := by
  cases hgen : generate_maze sx sy sz seed g with
  | none => simp [Maze3DEnv.init, hgen] at h
  | some r =>
    obtain ⟨grid, start, goal⟩ := r
    obtain ⟨hstart, -⟩ := generate_maze_some hgen
    subst hstart
    refine ⟨grid, goal, rfl, ?_⟩
    simp only [Maze3DEnv.init, hgen] at h
    injection h with h1
    exact h1.symm

/-- A position that is not a wall is in bounds. -/
theorem not_wall_in_bounds {e : Maze3DEnv} {p : V3} (h : e.is_wall p = false) :
    e.in_bounds p = true := by
  unfold Maze3DEnv.is_wall at h
  by_cases hb : e.in_bounds p
  · exact hb
  · simp [hb] at h

/-- Unpacking of the bounds check. -/
theorem in_bounds_iff (e : Maze3DEnv) (p : V3) :
    e.in_bounds p = true ↔
      (0 ≤ p.1 ∧ p.1 < e.sx ∧ 0 ≤ p.2.1 ∧ p.2.1 < e.sy ∧ 0 ≤ p.2.2 ∧ p.2.2 < e.sz) := by
  unfold Maze3DEnv.in_bounds
  exact decide_eq_true_iff

/-- Every in-range index of `DIRS` yields an element of `DIRS`. -/
theorem dirs_getD_mem (k : Nat) (hk : k < 6) : DIRS.getD k (0,0,0) ∈ DIRS := by
  interval_cases k <;> decide

/-- State invariant maintained by `reset` and `step`: positive
configured dimensions, in-bounds agent, and a last-move vector that is
either zero or one of the six unit moves. -/
def EnvInv (e : Maze3DEnv) : Prop :=
  2 ≤ e.sx ∧ 2 ≤ e.sy ∧ 2 ≤ e.sz ∧
  0 ≤ e.agent.1 ∧ e.agent.1 < e.sx ∧
  0 ≤ e.agent.2.1 ∧ e.agent.2.1 < e.sy ∧
  0 ≤ e.agent.2.2 ∧ e.agent.2.2 < e.sz ∧
  (e.last_move = ((0:Int), (0:Int), (0:Int)) ∨ e.last_move ∈ DIRS)

/-- A successful construction establishes the invariant. -/
theorem envInv_init {sx sy sz ms : Int} {seed : Option Int} {g : Nat → Nat} {e : Maze3DEnv}
    (h : Maze3DEnv.init sx sy sz ms seed g = some e) : EnvInv e := by
  obtain ⟨grid, goal, hgen, he⟩ := init_some h
  obtain ⟨-, -, -, -, h2x, h2y, h2z, -, -⟩ := generate_maze_some hgen
  have hx := (oddDim_ge_two sx).mp h2x
  have hy := (oddDim_ge_two sy).mp h2y
  have hz := (oddDim_ge_two sz).mp h2z
  subst he
  refine ⟨hx, hy, hz, ?_, ?_, ?_, ?_, ?_, ?_, Or.inl rfl⟩ <;> simp <;> omega

/-- One environment step preserves the invariant. -/
theorem envInv_step (e : Maze3DEnv) (a : Int) (h : EnvInv e) : EnvInv (e.step a).1 := by
  obtain ⟨hsx, hsy, hsz, hax0, hax1, hay0, hay1, haz0, haz1, hlm⟩ := h
  simp only [Maze3DEnv.step]
  by_cases hw : e.is_wall (vadd3 e.agent
      (DIRS.getD (if a < 0 ∨ 6 ≤ a then 0 else a).toNat (0,0,0))) = true
  · rw [if_pos hw]
    exact ⟨hsx, hsy, hsz, hax0, hax1, hay0, hay1, haz0, haz1, Or.inl rfl⟩
  · rw [Bool.not_eq_true] at hw
    rw [if_neg (by rw [hw]; exact Bool.false_ne_true)]
    have hb := (in_bounds_iff e _).mp (not_wall_in_bounds hw)
    refine ⟨hsx, hsy, hsz, hb.1, hb.2.1, hb.2.2.1, hb.2.2.2.1, hb.2.2.2.2.1, hb.2.2.2.2.2, ?_⟩
    refine Or.inr (dirs_getD_mem _ ?_)
    by_cases hrange : a < 0 ∨ 6 ≤ a
    · rw [if_pos hrange]; decide
    · rw [if_neg hrange]; omega

/-- Every reachable environment state satisfies the invariant. -/
theorem reachable_envInv {e : Maze3DEnv} (h : Reachable e) : EnvInv e := by
  induction h with
  | init sx sy sz ms seed g e h => exact envInv_init h
  | step e a _ ih => exact envInv_step e a ih

/-- C1: `done` returned by `step` is true if and only if the post-move
agent position equals the goal or the incremented step counter has
reached `max_steps`; in particular the episode never continues past
`max_steps` (the counter condition alone forces `done`). -/
theorem C1_termination (e : Maze3DEnv) (a : Int) :
    ((e.step a).2.2 = true ↔
      ((e.step a).1.agent = e.goal ∨ e.max_steps ≤ e.steps + 1)) ∧
    (e.step a).1.steps = e.steps + 1 := by
  refine ⟨?_, by simp [Maze3DEnv.step]⟩
  simp only [Maze3DEnv.step]
  simp [Bool.or_eq_true, decide_eq_true_eq]

/-- C9 (behavioural part): any action outside `0..5` is silently coerced
to action `0`: the whole step result coincides (the embedding is a total
function, mirroring that no exception arises from any integer action). -/
theorem C9_action_coercion (e : Maze3DEnv) (a : Int) (h : a < 0 ∨ 6 ≤ a) :
    e.step a = e.step 0 := by
  simp only [Maze3DEnv.step]
  rw [if_pos h, if_neg (by omega : ¬((0:Int) < 0 ∨ 6 ≤ (0:Int)))]

/-- Witness for C9 at a concrete reachable environment and action 7. -/
theorem C9_action_coercion_witness :
    ((7:Int) < 0 ∨ 6 ≤ (7:Int)) ∧ envCorridor.step 7 = envCorridor.step 0 :=
  ⟨by omega, C9_action_coercion envCorridor 7 (by omega)⟩

/-- C3: on every reachable state the agent position lies within
`[0, dim-1]` on every axis of the configured dimensions. -/
theorem C3_bounds_safety (e : Maze3DEnv) (h : Reachable e) :
    0 ≤ e.agent.1 ∧ e.agent.1 ≤ e.sx - 1 ∧
    0 ≤ e.agent.2.1 ∧ e.agent.2.1 ≤ e.sy - 1 ∧
    0 ≤ e.agent.2.2 ∧ e.agent.2.2 ≤ e.sz - 1 := by
  obtain ⟨-, -, -, hax0, hax1, hay0, hay1, haz0, haz1, -⟩ := reachable_envInv h
  omega

/-- Witness for C3 at the concrete corridor environment. -/
theorem C3_bounds_safety_witness :
    0 ≤ envCorridor.agent.1 ∧ envCorridor.agent.1 ≤ envCorridor.sx - 1 ∧
    0 ≤ envCorridor.agent.2.1 ∧ envCorridor.agent.2.1 ≤ envCorridor.sy - 1 ∧
    0 ≤ envCorridor.agent.2.2 ∧ envCorridor.agent.2.2 ≤ envCorridor.sz - 1 :=
  C3_bounds_safety envCorridor
    (Reachable.init 3 3 5 10 none sigma0 envCorridor (opt_eq_some_getD _ _ (by decide)))

/-- C2 (amended): provided the agent is not already standing on the
goal before the move, a wall-blocked (or out-of-bounds) step leaves the
agent in place, zeroes the last-move vector, and returns reward exactly
`-0.01 - 0.20 + 0 = -0.21`; and a step that moves the agent onto the
goal returns reward exactly `-0.01 + 0.10*(prev_dist - new_dist) + 10.0`. -/
theorem C2_reward_bookkeeping (e : Maze3DEnv) (a : Int) (hng : e.agent ≠ e.goal) :
    (e.is_wall (vadd3 e.agent
        (DIRS.getD (if a < 0 ∨ 6 ≤ a then 0 else a).toNat (0,0,0))) = true →
      (e.step a).1.agent = e.agent ∧ (e.step a).1.last_move = ((0:Int),(0:Int),(0:Int)) ∧
      (e.step a).2.1 = -(21/100)) ∧
    (e.is_wall (vadd3 e.agent
        (DIRS.getD (if a < 0 ∨ 6 ≤ a then 0 else a).toNat (0,0,0))) = false →
     vadd3 e.agent (DIRS.getD (if a < 0 ∨ 6 ≤ a then 0 else a).toNat (0,0,0)) = e.goal →
      (e.step a).2.1 = -(1/100) +
        ((dist3 e.agent e.goal : ℚ) -
         (dist3 (vadd3 e.agent (DIRS.getD (if a < 0 ∨ 6 ≤ a then 0 else a).toNat (0,0,0)))
            e.goal : ℚ)) * (10/100) + 10) := by
  constructor
  · intro hw
    simp only [Maze3DEnv.step]
    rw [if_pos hw]
    refine ⟨rfl, rfl, ?_⟩
    simp only []
    rw [if_neg (by simpa using hng)]
    ring
  · intro hw hgl
    simp only [Maze3DEnv.step]
    have hnw : ¬(e.is_wall (vadd3 e.agent
        (DIRS.getD (if a < 0 ∨ 6 ≤ a then 0 else a).toNat (0,0,0))) = true) := by
      rw [hw]; exact Bool.false_ne_true
    rw [if_neg hnw]
    simp only []
    rw [if_pos (by simpa using hgl)]

/-- Witness for C2 on the corridor environment: action `+X` bumps a
wall while the agent is off-goal. -/
theorem C2_reward_bookkeeping_witness :
    envCorridor.agent ≠ envCorridor.goal ∧
    envCorridor.is_wall (vadd3 envCorridor.agent
        (DIRS.getD (if (0:Int) < 0 ∨ 6 ≤ (0:Int) then 0 else (0:Int)).toNat (0,0,0))) = true ∧
    ((envCorridor.step 0).1.agent = envCorridor.agent ∧
     (envCorridor.step 0).1.last_move = ((0:Int),(0:Int),(0:Int)) ∧
     (envCorridor.step 0).2.1 = -(21/100)) :=
  ⟨by decide, by decide,
   (C2_reward_bookkeeping envCorridor 0 (by decide)).1 (by decide)⟩

/-- Counterexample to C2 as stated for every state: in the reachable
3×3×3 environment the agent starts on the goal, so a wall-blocked step
(action `+X` into the wall at `(2,1,1)`) leaves the position unchanged
and zeroes the last move, yet returns reward `9.79`, not `-0.21`
(the goal bonus still fires). -/
theorem C2_counterexample :
    Maze3DEnv.init 3 3 3 100 none sigma0 = some envUnitMaze ∧
    envUnitMaze.is_wall (vadd3 envUnitMaze.agent
        (DIRS.getD (if (0:Int) < 0 ∨ 6 ≤ (0:Int) then 0 else (0:Int)).toNat (0,0,0))) = true ∧
    (envUnitMaze.step 0).1.agent = envUnitMaze.agent ∧
    (envUnitMaze.step 0).1.last_move = ((0:Int),(0:Int),(0:Int)) ∧
    (envUnitMaze.step 0).2.1 = 979/100 ∧
    ¬((envUnitMaze.step 0).2.1 = -(21/100)) := by
  refine ⟨by decide, by decide, by decide, by decide, ?_, ?_⟩
  · simp only [Maze3DEnv.step, envUnitMaze]
    norm_num [Maze3DEnv.is_wall, Maze3DEnv.in_bounds, vadd3, DIRS, dist3]
  · simp only [Maze3DEnv.step, envUnitMaze]
    norm_num [Maze3DEnv.is_wall, Maze3DEnv.in_bounds, vadd3, DIRS, dist3]

/-- C4: on every reachable state the observation is exactly the fixed
18-value layout: six danger flags in direction order `+X,-X,+Y,-Y,+Z,-Z`
(1 iff neighbouring cell is wall or outside), six strict goal-relative
flags (each exactly 0 or 1), per-axis goal offsets divided by
`max 1 (dim - 1)` (unclamped), and the three last-move components, each
in `{-1, 0, 1}`. -/
theorem C4_observation (e : Maze3DEnv) (h : Reachable e) :
    e.obs.length = 18 ∧
    e.obs = [ (if e.is_wall (vadd3 e.agent (1,0,0)) then (1:ℚ) else 0),
              (if e.is_wall (vadd3 e.agent (-1,0,0)) then (1:ℚ) else 0),
              (if e.is_wall (vadd3 e.agent (0,1,0)) then (1:ℚ) else 0),
              (if e.is_wall (vadd3 e.agent (0,-1,0)) then (1:ℚ) else 0),
              (if e.is_wall (vadd3 e.agent (0,0,1)) then (1:ℚ) else 0),
              (if e.is_wall (vadd3 e.agent (0,0,-1)) then (1:ℚ) else 0),
              (if e.goal.1 > e.agent.1 then 1 else 0),
              (if e.goal.1 < e.agent.1 then 1 else 0),
              (if e.goal.2.1 > e.agent.2.1 then 1 else 0),
              (if e.goal.2.1 < e.agent.2.1 then 1 else 0),
              (if e.goal.2.2 > e.agent.2.2 then 1 else 0),
              (if e.goal.2.2 < e.agent.2.2 then 1 else 0),
              ((e.goal.1 - e.agent.1 : Int) : ℚ) / ((max 1 (e.sx - 1) : Int) : ℚ),
              ((e.goal.2.1 - e.agent.2.1 : Int) : ℚ) / ((max 1 (e.sy - 1) : Int) : ℚ),
              ((e.goal.2.2 - e.agent.2.2 : Int) : ℚ) / ((max 1 (e.sz - 1) : Int) : ℚ),
              (e.last_move.1 : ℚ), (e.last_move.2.1 : ℚ), (e.last_move.2.2 : ℚ) ] ∧
    (∀ i : Nat, i < 12 → e.obs.getD i 5 = 0 ∨ e.obs.getD i 5 = 1) ∧
    (∀ i : Nat, 15 ≤ i → i < 18 →
      e.obs.getD i 5 = -1 ∨ e.obs.getD i 5 = 0 ∨ e.obs.getD i 5 = 1) := by
  refine ⟨by simp [Maze3DEnv.obs, DIRS], by simp [Maze3DEnv.obs, DIRS], ?_, ?_⟩
  · intro i hi
    interval_cases i <;>
      simp only [Maze3DEnv.obs, DIRS, List.map_cons, List.map_nil, List.cons_append,
        List.nil_append, List.getD, List.getElem?_cons_zero, List.getElem?_cons_succ,
        Option.getD_some] <;>
      split <;> simp <;> omega
  · intro i h15 h18
    obtain ⟨-, -, -, -, -, -, -, -, -, hlm⟩ := reachable_envInv h
    have hcomp : (e.last_move.1 = 0 ∨ e.last_move.1 = 1 ∨ e.last_move.1 = -1) ∧
        (e.last_move.2.1 = 0 ∨ e.last_move.2.1 = 1 ∨ e.last_move.2.1 = -1) ∧
        (e.last_move.2.2 = 0 ∨ e.last_move.2.2 = 1 ∨ e.last_move.2.2 = -1) := by
      rcases hlm with hz | hd
      · rw [hz]; exact ⟨Or.inl rfl, Or.inl rfl, Or.inl rfl⟩
      · simp only [DIRS, List.mem_cons, List.not_mem_nil, or_false] at hd
        rcases hd with hd | hd | hd | hd | hd | hd <;> rw [hd] <;> norm_num
    interval_cases i <;>
      simp only [Maze3DEnv.obs, DIRS, List.map_cons, List.map_nil, List.cons_append,
        List.nil_append, List.getD, List.getElem?_cons_zero, List.getElem?_cons_succ,
        Option.getD_some]
    · rcases hcomp.1 with h | h | h <;> rw [h] <;> norm_num
    · rcases hcomp.2.1 with h | h | h <;> rw [h] <;> norm_num
    · rcases hcomp.2.2 with h | h | h <;> rw [h] <;> norm_num

/-- Witness for C4 at the concrete corridor environment, sampling one
index from each guaranteed range. -/
theorem C4_observation_witness :
    envCorridor.obs.length = 18 ∧
    (envCorridor.obs.getD 5 5 = 0 ∨ envCorridor.obs.getD 5 5 = 1) ∧
    (envCorridor.obs.getD 17 5 = -1 ∨ envCorridor.obs.getD 17 5 = 0 ∨
     envCorridor.obs.getD 17 5 = 1) := by
  have hc := C4_observation envCorridor
    (Reachable.init 3 3 5 10 none sigma0 envCorridor (opt_eq_some_getD _ _ (by decide)))
  exact ⟨hc.1, hc.2.2.1 5 (by omega), hc.2.2.2 17 (by omega) (by omega)⟩

/-- C7: with the same dimensions and the same explicit seed, two calls
of `generate_maze` return identical grids, starts and goals — whatever
the ambient state of the global generator was before each call
(`random.seed` makes the draw stream a function of the seed alone). -/
theorem C7_determinism (sx sy sz : Int) (s : Int) (g1 g2 : Nat → Nat) :
    generate_maze sx sy sz (some s) g1 = generate_maze sx sy sz (some s) g2 := rfl

/-- Generation succeeds exactly when every requested dimension is at
least 2 (below that, the `grid[1][1][1] = 0` write raises). -/
theorem generate_isSome_iff (sx sy sz : Int) (seed : Option Int) (g : Nat → Nat) :
    (generate_maze sx sy sz seed g).isSome = true ↔ (2 ≤ sx ∧ 2 ≤ sy ∧ 2 ≤ sz) := by
  simp only [generate_maze]
  split
  · rename_i hc
    rw [oddDim_ge_two, oddDim_ge_two, oddDim_ge_two] at hc
    simpa using hc
  · rename_i hc
    rw [oddDim_ge_two, oddDim_ge_two, oddDim_ge_two] at hc
    simpa using hc

/-- Construction succeeds exactly when every requested dimension is at
least 2; `max_steps` is never inspected. -/
theorem init_isSome_iff (sx sy sz ms : Int) (seed : Option Int) (g : Nat → Nat) :
    (Maze3DEnv.init sx sy sz ms seed g).isSome = true ↔ (2 ≤ sx ∧ 2 ≤ sy ∧ 2 ≤ sz) := by
  rw [← generate_isSome_iff sx sy sz seed g]
  unfold Maze3DEnv.init
  cases generate_maze sx sy sz seed g with
  | none => simp
  | some r => obtain ⟨grid, start, goal⟩ := r; simp

/-- C8 (amended): construction with a non-positive requested dimension
does fail at generation time (the `grid[1][1][1] = 0` write raises), but
there is no explicit validation, and non-positive `max_steps` is
accepted silently: construction succeeds for every `max_steps` whenever
all requested dimensions are at least 2. -/
theorem C8_construction_validation (sx sy sz ms : Int) (seed : Option Int) (g : Nat → Nat) :
    ((sx ≤ 0 ∨ sy ≤ 0 ∨ sz ≤ 0) → Maze3DEnv.init sx sy sz ms seed g = none) ∧
    (2 ≤ sx → 2 ≤ sy → 2 ≤ sz → (Maze3DEnv.init sx sy sz ms seed g).isSome = true) := by
  constructor
  · intro hnp
    rw [← Option.not_isSome_iff_eq_none]
    rw [init_isSome_iff]
    omega
  · intro hx hy hz
    rw [init_isSome_iff]
    exact ⟨hx, hy, hz⟩

/-- Witness for C8: dimension 0 makes construction fail, while a
negative `max_steps` does not prevent construction. -/
theorem C8_construction_validation_witness :
    ((0:Int) ≤ 0 ∨ (5:Int) ≤ 0 ∨ (5:Int) ≤ 0) ∧
    Maze3DEnv.init 0 5 5 400 none sigma0 = none ∧
    (Maze3DEnv.init 3 3 3 (-7) none sigma0).isSome = true :=
  ⟨Or.inl le_rfl,
   (C8_construction_validation 0 5 5 400 none sigma0).1 (Or.inl le_rfl),
   (C8_construction_validation 3 3 3 (-7) none sigma0).2 (by omega) (by omega) (by omega)⟩

/-- Counterexample to C8 as stated: constructing the environment with
`max_steps = 0` (non-positive) succeeds instead of failing. -/
theorem C8_counterexample : (Maze3DEnv.init 3 3 3 0 none sigma0).isSome = true := by decide

/-- C10 (amended): the owned grid has odd dimensions (each even input
incremented by one), but the environment keeps the REQUESTED dimensions
for its bounds check and observation normalization; consequently every
grid cell lies within the environment's bounds when the requested
dimensions are odd, while an even requested dimension leaves the last
grid slice out of the environment's bounds. -/
theorem C10_dimension_coercion {sx sy sz ms : Int} {seed : Option Int} {g : Nat → Nat}
    {e : Maze3DEnv} (h : Maze3DEnv.init sx sy sz ms seed g = some e) :
    (e.grid.sx = oddDim sx ∧ e.grid.sy = oddDim sy ∧ e.grid.sz = oddDim sz) ∧
    (e.grid.sx % 2 = 1 ∧ e.grid.sy % 2 = 1 ∧ e.grid.sz % 2 = 1) ∧
    (e.sx = sx ∧ e.sy = sy ∧ e.sz = sz) ∧
    (sx % 2 = 1 → sy % 2 = 1 → sz % 2 = 1 →
      ∀ p : V3, e.grid.validIdx p → e.in_bounds p = true) := by
  obtain ⟨grid, goal, hgen, he⟩ := init_some h
  obtain ⟨-, hgx, hgy, hgz, -, -, -, -, -⟩ := generate_maze_some hgen
  subst he
  refine ⟨⟨hgx, hgy, hgz⟩,
          ⟨by rw [hgx]; exact oddDim_odd sx, by rw [hgy]; exact oddDim_odd sy,
           by rw [hgz]; exact oddDim_odd sz⟩,
          ⟨rfl, rfl, rfl⟩, ?_⟩
  intro hox hoy hoz p hp
  have hex : oddDim sx = sx := by unfold oddDim; split <;> omega
  have hey : oddDim sy = sy := by unfold oddDim; split <;> omega
  have hez : oddDim sz = sz := by unfold oddDim; split <;> omega
  rw [in_bounds_iff]
  unfold Grid3.validIdx at hp
  rw [hgx, hex, hgy, hey, hgz, hez] at hp
  exact hp

/-- Witness for C10 at the odd-dimensioned corridor environment. -/
theorem C10_dimension_coercion_witness :
    (envCorridor.grid.sx = oddDim 3 ∧ envCorridor.grid.sy = oddDim 3 ∧
     envCorridor.grid.sz = oddDim 5) ∧
    envCorridor.grid.sx % 2 = 1 ∧ envCorridor.sx = 3 ∧
    envCorridor.in_bounds (2, 2, 4) = true := by
  have hc := C10_dimension_coercion (opt_eq_some_getD
    (Maze3DEnv.init 3 3 5 10 none sigma0) defaultEnv (by decide))
  exact ⟨hc.1, hc.2.1.1, hc.2.2.1.1,
    hc.2.2.2 (by omega) (by omega) (by omega) (2, 2, 4) (by decide)⟩

/-- Counterexample to C10 as stated: with even requested dimensions
2×2×2 the grid is 3×3×3, yet the environment's bounds check still uses
the requested dimensions, so the valid grid cell `(2,1,1)` lies outside
the environment's bounds. -/
theorem C10_counterexample :
    Maze3DEnv.init 2 2 2 10 none sigma0 = some envEven ∧
    envEven.grid.sx = 3 ∧ envEven.sx = 2 ∧
    envEven.grid.validIdx (2, 1, 1) ∧ envEven.in_bounds (2, 1, 1) = false :=
  ⟨by decide, by decide, by decide, by decide, by decide⟩

/-! ## Shuffle and neighbour lemmas -/

/-- Removing the selected element and re-prepending it permutes a list. -/
theorem getD_cons_eraseIdx_perm {α : Type} (l : List α) (i : Nat) (h : i < l.length) (d : α) :
    (l.getD i d :: l.eraseIdx i).Perm l := by
  induction l generalizing i with
  | nil => simp at h
  | cons x xs ih =>
    cases i with
    | zero => simp
    | succ j =>
      simp only [List.getD_cons_succ, List.eraseIdx_cons_succ]
      have hj : j < xs.length := by simpa using h
      exact (List.Perm.swap x (xs.getD j d) (xs.eraseIdx j)).trans
        (List.Perm.cons x (ih j hj))

/-- The modelled shuffle is a permutation of its input, for any stream,
start index and fuel. -/
theorem shuffleWith_perm (σ : Nat → Nat) (fuel k : Nat) (l : List V3) :
    (shuffleWith σ fuel k l).Perm l := by
  induction fuel generalizing k l with
  | zero => cases l <;> simp [shuffleWith]
  | succ f ih =>
    cases l with
    | nil => simp [shuffleWith]
    | cons x xs =>
      simp only [shuffleWith]
      have hlt : σ k % (x :: xs).length < (x :: xs).length :=
        Nat.mod_lt _ (by simp)
      exact ((ih (k+1) ((x :: xs).eraseIdx (σ k % (x :: xs).length))).cons _).trans
        (getD_cons_eraseIdx_perm (x :: xs) _ hlt x)

/-- Membership is preserved by the modelled shuffle. -/
theorem mem_shuffleWith {σ : Nat → Nat} {fuel k : Nat} {l : List V3} {p : V3} :
    p ∈ shuffleWith σ fuel k l ↔ p ∈ l :=
  (shuffleWith_perm σ fuel k l).mem_iff

/-- Characterization of the two-step neighbour list. -/
theorem mem_neighbors_2step {c n : V3} {sx sy sz : Int} :
    n ∈ neighbors_2step c.1 c.2.1 c.2.2 sx sy sz ↔
      (InInt sx sy sz n ∧ ∃ d ∈ DELTAS2, n = vadd3 c d) := by
  unfold neighbors_2step
  rw [List.mem_filterMap]
  constructor
  · rintro ⟨d, hd, hsome⟩
    simp only [] at hsome
    split at hsome
    · rename_i hcond
      injection hsome with hn
      subst hn
      exact ⟨hcond, d, hd, rfl⟩
    · exact absurd hsome (by simp)
  · rintro ⟨hint, d, hd, rfl⟩
    refine ⟨d, hd, ?_⟩
    simp only []
    have hint2 : 1 ≤ c.1 + d.1 ∧ c.1 + d.1 < sx - 1 ∧ 1 ≤ c.2.1 + d.2.1 ∧
        c.2.1 + d.2.1 < sy - 1 ∧ 1 ≤ c.2.2 + d.2.2 ∧ c.2.2 + d.2.2 < sz - 1 := by
      simpa [InInt, vadd3] using hint
    rw [if_pos hint2]
    simp [vadd3]

/-! ## Simple-path lemmas -/

/-- Adjacency is symmetric. -/
theorem adjc_symm {p q : V3} (h : adjc p q) : adjc q p := by
  unfold adjc dist3 at h ⊢; omega

/-- Head membership. -/
theorem mem_of_head?_eq {l : List V3} {x : V3} (h : l.head? = some x) : x ∈ l := by
  cases l with
  | nil => simp at h
  | cons a t =>
    simp only [List.head?_cons, Option.some.injEq] at h
    subst h
    exact List.mem_cons_self a t

/-- Last membership. -/
theorem mem_of_getLast?_eq {l : List V3} {x : V3} (h : l.getLast? = some x) : x ∈ l := by
  cases l with
  | nil => simp at h
  | cons a t =>
    rw [List.getLast?_eq_getLast _ (by simp)] at h
    injection h with h
    rw [← h]
    exact List.getLast_mem _

/-- Paths are nonempty. -/
theorem isPathIn_ne_nil {f : Finset V3} {s t : V3} {l : List V3} (h : IsPathIn f s t l) :
    l ≠ [] := by
  intro he
  rw [he] at h
  simpa using h.1

/-- The one-vertex path. -/
theorem isPathIn_singleton {f : Finset V3} {s : V3} (hs : s ∈ f) : IsPathIn f s s [s] :=
  ⟨rfl, rfl, List.nodup_singleton s, by simpa using hs, List.chain'_singleton s⟩

/-- A simple path from `s` back to `s` is the one-vertex path. -/
theorem isPathIn_self_eq {f : Finset V3} {s : V3} {l : List V3} (h : IsPathIn f s s l) :
    l = [s] := by
  obtain ⟨h1, h2, h3, h4, h5⟩ := h
  cases l with
  | nil => simp at h1
  | cons a t =>
    simp only [List.head?_cons, Option.some.injEq] at h1
    cases t with
    | nil => rw [h1]
    | cons b u =>
      exfalso
      rw [List.getLast?_eq_getLast _ (by simp)] at h2
      injection h2 with h2
      have hmem : (a :: b :: u).getLast (by simp) ∈ b :: u := by
        rw [List.getLast_cons (by simp)]
        exact List.getLast_mem (by simp)
      rw [h2, ← h1] at hmem
      exact (List.nodup_cons.mp h3).1 hmem

/-- Paths are preserved by enlarging the free set. -/
theorem isPathIn_mono {f g : Finset V3} {s t : V3} {l : List V3}
    (hfg : f ⊆ g) (h : IsPathIn f s t l) : IsPathIn g s t l :=
  ⟨h.1, h.2.1, h.2.2.1, fun p hp => hfg (h.2.2.2.1 p hp), h.2.2.2.2⟩

/-- A path avoiding `v` inside `insert v f` is a path inside `f`. -/
theorem isPathIn_restrict {f : Finset V3} {v s t : V3} {l : List V3}
    (hvl : v ∉ l) (h : IsPathIn (insert v f) s t l) : IsPathIn f s t l := by
  refine ⟨h.1, h.2.1, h.2.2.1, fun p hp => ?_, h.2.2.2.2⟩
  rcases Finset.mem_insert.mp (h.2.2.2.1 p hp) with rfl | hpf
  · exact absurd hp hvl
  · exact hpf

/-- A simple path to a target other than a pendant vertex `v` (whose
sole free neighbour is `u`) never passes through `v`. -/
theorem pendant_not_mem_path {f : Finset V3} {v u s p : V3} {l : List V3}
    (hv : v ∉ f) (hs : s ∈ f)
    (honly : ∀ q ∈ f, adjc v q → q = u)
    (hp : p ≠ v)
    (h : IsPathIn (insert v f) s p l) : v ∉ l := by
  obtain ⟨h1, h2, h3, h4, h5⟩ := h
  intro hvl
  obtain ⟨l1, l2, rfl⟩ := List.append_of_mem hvl
  cases l1 with
  | nil =>
    simp only [List.nil_append, List.head?_cons, Option.some.injEq] at h1
    exact hv (h1 ▸ hs)
  | cons a t1 =>
  cases l2 with
  | nil =>
    rw [List.getLast?_append_of_ne_nil _ (by simp)] at h2
    simp only [List.getLast?_singleton, Option.some.injEq] at h2
    exact hp h2.symm
  | cons b t2 =>
    rw [List.chain'_append] at h5
    obtain ⟨hc1, hc2, hjunc⟩ := h5
    have hxv : adjc ((a :: t1).getLast (by simp)) v :=
      hjunc _ (List.getLast?_eq_getLast _ (by simp)) v rfl
    have hvb : adjc v b := (List.chain'_cons.mp hc2).1
    have hdisj : (a :: t1).Disjoint (v :: b :: t2) := List.disjoint_of_nodup_append h3
    have hvnot1 : v ∉ a :: t1 := fun hin => hdisj hin (List.mem_cons_self v _)
    have hbnot1 : b ∉ a :: t1 := fun hin => hdisj hin (by simp)
    have hnd2 : (v :: b :: t2).Nodup := (List.nodup_append.mp h3).2.1
    have hbv : b ≠ v := fun he => (List.nodup_cons.mp hnd2).1 (by rw [← he]; simp)
    set x := (a :: t1).getLast (by simp) with hxdef
    have hx_mem : x ∈ a :: t1 := List.getLast_mem _
    have hx_ne : x ≠ v := fun he => hvnot1 (he ▸ hx_mem)
    have hx_f : x ∈ f := by
      have hx_l : x ∈ (a :: t1) ++ v :: b :: t2 := List.mem_append_left _ hx_mem
      rcases Finset.mem_insert.mp (h4 x hx_l) with he | hf
      · exact absurd he hx_ne
      · exact hf
    have hb_f : b ∈ f := by
      have hb_l : b ∈ (a :: t1) ++ v :: b :: t2 := List.mem_append_right _ (by simp)
      rcases Finset.mem_insert.mp (h4 b hb_l) with he | hf
      · exact absurd he hbv
      · exact hf
    have hxu : x = u := honly x hx_f (adjc_symm hxv)
    have hbu : b = u := honly b hb_f hvb
    exact hbnot1 (by rw [hbu, ← hxu]; exact hx_mem)

/-- A simple path ending at the pendant vertex `v` is a path to its
sole neighbour `u` followed by `v`. -/
theorem pendant_path_to_v {f : Finset V3} {v u s : V3} {l : List V3}
    (hv : v ∉ f) (hsv : s ≠ v)
    (honly : ∀ q ∈ f, adjc v q → q = u)
    (h : IsPathIn (insert v f) s v l) :
    ∃ m, l = m ++ [v] ∧ IsPathIn f s u m := by
  obtain ⟨h1, h2, h3, h4, h5⟩ := h
  have hne : l ≠ [] := by intro he; rw [he] at h1; simp at h1
  have hlast : l.getLast hne = v := by
    rw [List.getLast?_eq_getLast _ hne] at h2
    injection h2
  have hm : l = l.dropLast ++ [v] := by
    conv_lhs => rw [← List.dropLast_append_getLast hne]
    rw [hlast]
  set m := l.dropLast with hmdef
  have hnd : (m ++ [v]).Nodup := hm ▸ h3
  have hvm : v ∉ m := fun hin => (List.disjoint_of_nodup_append hnd) hin (by simp)
  have hmne : m ≠ [] := by
    intro he
    rw [he, List.nil_append] at hm
    rw [hm] at h1
    simp only [List.head?_cons, Option.some.injEq] at h1
    exact hsv h1.symm
  have hhead : m.head? = some s := by
    rw [hm, List.head?_append_of_ne_nil _ hmne] at h1
    exact h1
  have hchain : (m ++ [v]).Chain' adjc := hm ▸ h5
  rw [List.chain'_append] at hchain
  obtain ⟨hcm, -, hjunc⟩ := hchain
  have hmem : ∀ q ∈ m, q ∈ f := by
    intro q hq
    have hql : q ∈ l := by rw [hm]; exact List.mem_append_left _ hq
    rcases Finset.mem_insert.mp (h4 q hql) with rfl | hf
    · exact absurd hq hvm
    · exact hf
  have hxv : adjc (m.getLast hmne) v :=
    hjunc _ (List.getLast?_eq_getLast _ hmne) v rfl
  have hxu : m.getLast hmne = u :=
    honly _ (hmem _ (List.getLast_mem hmne)) (adjc_symm hxv)
  refine ⟨m, hm, hhead, ?_, hnd.of_append_left, hmem, hcm⟩
  rw [List.getLast?_eq_getLast _ hmne, hxu]

/-- Appending the pendant vertex to a path to its sole neighbour yields
a path to the pendant vertex. -/
theorem pendant_snoc_path {f : Finset V3} {v u s : V3} {m : List V3}
    (hv : v ∉ f) (hadj : adjc u v)
    (h : IsPathIn f s u m) : IsPathIn (insert v f) s v (m ++ [v]) := by
  obtain ⟨h1, h2, h3, h4, h5⟩ := h
  have hne : m ≠ [] := by intro he; rw [he] at h1; simp at h1
  refine ⟨?_, List.getLast?_concat m, ?_, ?_, ?_⟩
  · rw [List.head?_append_of_ne_nil _ hne]; exact h1
  · rw [List.nodup_append]
    refine ⟨h3, List.nodup_singleton v, ?_⟩
    intro q hq hq2
    rw [List.mem_singleton] at hq2
    subst hq2
    exact hv (h4 q hq)
  · intro q hq
    rcases List.mem_append.mp hq with hq | hq
    · exact Finset.mem_insert_of_mem (h4 q hq)
    · rw [List.mem_singleton] at hq; rw [hq]; exact Finset.mem_insert_self v f
  · rw [List.chain'_append]
    refine ⟨h5, List.chain'_singleton v, ?_⟩
    intro x hx y hy
    rw [Option.mem_def, h2, Option.some.injEq] at hx
    rw [Option.mem_def, List.head?_cons, Option.some.injEq] at hy
    rw [← hx, ← hy]
    exact hadj

/-- Pendant extension: attaching a new vertex `v` adjacent exactly to
`u` preserves unique simple paths from the start to every free cell. -/
theorem pendant_unique_paths {f : Finset V3} {s u v : V3}
    (hs : s ∈ f) (hu : u ∈ f) (hv : v ∉ f)
    (hadj : adjc u v)
    (honly : ∀ q ∈ f, adjc v q → q = u)
    (hUP : ∀ p ∈ f, ∃! l : List V3, IsPathIn f s p l) :
    ∀ p ∈ insert v f, ∃! l : List V3, IsPathIn (insert v f) s p l := by
  have hsv : s ≠ v := fun he => hv (he ▸ hs)
  intro p hp
  rcases Finset.mem_insert.mp hp with he | hpf
  · rw [he]
    obtain ⟨m0, hm0, hm0u⟩ := hUP u hu
    refine ⟨m0 ++ [v], pendant_snoc_path hv hadj hm0, ?_⟩
    intro l hl
    obtain ⟨m, hmeq, hmpath⟩ := pendant_path_to_v hv hsv honly hl
    rw [hmeq, hm0u m hmpath]
  · have hpv : p ≠ v := fun he => hv (he ▸ hpf)
    obtain ⟨l0, hl0, hl0u⟩ := hUP p hpf
    refine ⟨l0, isPathIn_mono (Finset.subset_insert v f) hl0, ?_⟩
    intro l hl
    exact hl0u l (isPathIn_restrict (pendant_not_mem_path hv hs honly hpv hl) hl)

/-! ## Parity geometry of the carving -/

/-- Componentwise equality of positions. -/
theorem v3_eq {p q : V3} (h1 : p.1 = q.1) (h2 : p.2.1 = q.2.1) (h3 : p.2.2 = q.2.2) :
    p = q := by
  obtain ⟨px, py, pz⟩ := p
  obtain ⟨qx, qy, qz⟩ := q
  simp_all

/-- Componentwise construction of a position equality. -/
theorem v3_eq_mk {p : V3} {a b c : Int} (h1 : p.1 = a) (h2 : p.2.1 = b) (h3 : p.2.2 = c) :
    p = (a, b, c) := v3_eq h1 h2 h3

/-- Two all-odd rooms are never unit-adjacent. -/
theorem odd_not_adjc {p q : V3} (hp : OddCell p) (hq : OddCell q) : ¬ adjc p q := by
  unfold OddCell at hp hq
  unfold adjc dist3
  omega

/-- A unit-adjacent cell differs by one on exactly one axis. -/
theorem adjc_cases {w q : V3} (h : adjc w q) :
    (q.1 = w.1 - 1 ∧ q.2.1 = w.2.1 ∧ q.2.2 = w.2.2) ∨
    (q.1 = w.1 + 1 ∧ q.2.1 = w.2.1 ∧ q.2.2 = w.2.2) ∨
    (q.1 = w.1 ∧ q.2.1 = w.2.1 - 1 ∧ q.2.2 = w.2.2) ∨
    (q.1 = w.1 ∧ q.2.1 = w.2.1 + 1 ∧ q.2.2 = w.2.2) ∨
    (q.1 = w.1 ∧ q.2.1 = w.2.1 ∧ q.2.2 = w.2.2 - 1) ∨
    (q.1 = w.1 ∧ q.2.1 = w.2.1 ∧ q.2.2 = w.2.2 + 1) := by
  unfold adjc dist3 at h
  omega

/-- Parity/membership classification of FREE cells under the invariant:
each is a visited all-odd room, or a carved wall on one axis (that axis
even, the others odd, both axis neighbours visited). -/
theorem free_classify {sx sy sz : Int} {S : CarveState} (inv : CarveInv sx sy sz S)
    {q : V3} (hq : q ∈ S.free) :
    (q ∈ S.visited ∧ OddCell q) ∨
    (q.1 % 2 = 0 ∧ q.2.1 % 2 = 1 ∧ q.2.2 % 2 = 1 ∧
      (q.1 - 1, q.2.1, q.2.2) ∈ S.visited ∧ (q.1 + 1, q.2.1, q.2.2) ∈ S.visited) ∨
    (q.1 % 2 = 1 ∧ q.2.1 % 2 = 0 ∧ q.2.2 % 2 = 1 ∧
      (q.1, q.2.1 - 1, q.2.2) ∈ S.visited ∧ (q.1, q.2.1 + 1, q.2.2) ∈ S.visited) ∨
    (q.1 % 2 = 1 ∧ q.2.1 % 2 = 1 ∧ q.2.2 % 2 = 0 ∧
      (q.1, q.2.1, q.2.2 - 1) ∈ S.visited ∧ (q.1, q.2.1, q.2.2 + 1) ∈ S.visited) := by
  rcases inv.free_decomp q hq with hvis | hwall
  · exact Or.inl ⟨hvis, inv.vis_odd q hvis⟩
  · rcases hwall with ⟨hm, hp⟩ | ⟨hm, hp⟩ | ⟨hm, hp⟩
    · have hom := inv.vis_odd _ hm
      have hop := inv.vis_odd _ hp
      unfold OddCell at hom hop
      dsimp only at hom hop
      exact Or.inr (Or.inl ⟨by omega, by omega, by omega, hm, hp⟩)
    · have hom := inv.vis_odd _ hm
      have hop := inv.vis_odd _ hp
      unfold OddCell at hom hop
      dsimp only at hom hop
      exact Or.inr (Or.inr (Or.inl ⟨by omega, by omega, by omega, hm, hp⟩))
    · have hom := inv.vis_odd _ hm
      have hop := inv.vis_odd _ hp
      unfold OddCell at hom hop
      dsimp only at hom hop
      exact Or.inr (Or.inr (Or.inr ⟨by omega, by omega, by omega, hm, hp⟩))

/-- A not-yet-visited all-odd room has no FREE neighbour at all. -/
theorem odd_unvisited_no_free_neighbor {sx sy sz : Int} {S : CarveState}
    (inv : CarveInv sx sy sz S) {n : V3} (hodd : OddCell n) (hnvis : n ∉ S.visited) :
    ∀ q ∈ S.free, ¬ adjc n q := by
  intro q hq hadj
  obtain ⟨ho1, ho2, ho3⟩ := hodd
  rcases free_classify inv hq with ⟨hqv, hq1, hq2, hq3⟩ | ⟨h1, h2, h3, hm, hp⟩ |
      ⟨h1, h2, h3, hm, hp⟩ | ⟨h1, h2, h3, hm, hp⟩
  · exact odd_not_adjc ⟨ho1, ho2, ho3⟩ ⟨hq1, hq2, hq3⟩ hadj
  · rcases adjc_cases hadj with ⟨e1, e2, e3⟩ | ⟨e1, e2, e3⟩ | ⟨e1, e2, e3⟩ |
        ⟨e1, e2, e3⟩ | ⟨e1, e2, e3⟩ | ⟨e1, e2, e3⟩
    · exact hnvis (by rw [v3_eq_mk (show n.1 = q.1 + 1 by omega) (show n.2.1 = q.2.1 by omega) (show n.2.2 = q.2.2 by omega)]; exact hp)
    · exact hnvis (by rw [v3_eq_mk (show n.1 = q.1 - 1 by omega) (show n.2.1 = q.2.1 by omega) (show n.2.2 = q.2.2 by omega)]; exact hm)
    · omega
    · omega
    · omega
    · omega
  · rcases adjc_cases hadj with ⟨e1, e2, e3⟩ | ⟨e1, e2, e3⟩ | ⟨e1, e2, e3⟩ |
        ⟨e1, e2, e3⟩ | ⟨e1, e2, e3⟩ | ⟨e1, e2, e3⟩
    · omega
    · omega
    · exact hnvis (by rw [v3_eq_mk (show n.1 = q.1 by omega) (show n.2.1 = q.2.1 + 1 by omega) (show n.2.2 = q.2.2 by omega)]; exact hp)
    · exact hnvis (by rw [v3_eq_mk (show n.1 = q.1 by omega) (show n.2.1 = q.2.1 - 1 by omega) (show n.2.2 = q.2.2 by omega)]; exact hm)
    · omega
    · omega
  · rcases adjc_cases hadj with ⟨e1, e2, e3⟩ | ⟨e1, e2, e3⟩ | ⟨e1, e2, e3⟩ |
        ⟨e1, e2, e3⟩ | ⟨e1, e2, e3⟩ | ⟨e1, e2, e3⟩
    · omega
    · omega
    · omega
    · omega
    · exact hnvis (by rw [v3_eq_mk (show n.1 = q.1 by omega) (show n.2.1 = q.2.1 by omega) (show n.2.2 = q.2.2 + 1 by omega)]; exact hp)
    · exact hnvis (by rw [v3_eq_mk (show n.1 = q.1 by omega) (show n.2.1 = q.2.1 by omega) (show n.2.2 = q.2.2 - 1 by omega)]; exact hm)

/-- An unvisited all-odd room is not FREE. -/
theorem odd_unvisited_not_free {sx sy sz : Int} {S : CarveState}
    (inv : CarveInv sx sy sz S) {n : V3} (hodd : OddCell n) (hnvis : n ∉ S.visited) :
    n ∉ S.free := by
  intro hnf
  obtain ⟨ho1, ho2, ho3⟩ := hodd
  rcases free_classify inv hnf with ⟨hqv, -⟩ | ⟨h1, -⟩ | ⟨-, h2, -⟩ | ⟨-, -, h3, -⟩
  · exact hnvis hqv
  · omega
  · omega
  · omega

/-- Carved walls persist when the visited set grows. -/
theorem isCarvedWall_mono {vis : Finset V3} {n p : V3} (h : IsCarvedWall vis p) :
    IsCarvedWall (insert n vis) p := by
  rcases h with ⟨hm, hp⟩ | ⟨hm, hp⟩ | ⟨hm, hp⟩
  · exact Or.inl ⟨Finset.mem_insert_of_mem hm, Finset.mem_insert_of_mem hp⟩
  · exact Or.inr (Or.inl ⟨Finset.mem_insert_of_mem hm, Finset.mem_insert_of_mem hp⟩)
  · exact Or.inr (Or.inr ⟨Finset.mem_insert_of_mem hm, Finset.mem_insert_of_mem hp⟩)

/-- A cell even exactly on the X axis has FREE neighbours only at its
two X-axis endpoints. -/
theorem wall_free_neighbors_X {sx sy sz : Int} {S : CarveState}
    (inv : CarveInv sx sy sz S) {w : V3}
    (hpx : w.1 % 2 = 0) (hpy : w.2.1 % 2 = 1) (hpz : w.2.2 % 2 = 1) :
    ∀ q ∈ S.free, adjc w q →
      q = (w.1 - 1, w.2.1, w.2.2) ∨ q = (w.1 + 1, w.2.1, w.2.2) := by
  intro q hq hadj
  rcases adjc_cases hadj with ⟨e1,e2,e3⟩|⟨e1,e2,e3⟩|⟨e1,e2,e3⟩|⟨e1,e2,e3⟩|⟨e1,e2,e3⟩|⟨e1,e2,e3⟩
  · exact Or.inl (v3_eq_mk e1 e2 e3)
  · exact Or.inr (v3_eq_mk e1 e2 e3)
  all_goals
    exfalso
    rcases free_classify inv hq with ⟨-, hq1, hq2, hq3⟩ | ⟨h1,h2,h3,-,-⟩ |
      ⟨h1,h2,h3,-,-⟩ | ⟨h1,h2,h3,-,-⟩ <;> omega

/-- A cell even exactly on the Y axis has FREE neighbours only at its
two Y-axis endpoints. -/
theorem wall_free_neighbors_Y {sx sy sz : Int} {S : CarveState}
    (inv : CarveInv sx sy sz S) {w : V3}
    (hpx : w.1 % 2 = 1) (hpy : w.2.1 % 2 = 0) (hpz : w.2.2 % 2 = 1) :
    ∀ q ∈ S.free, adjc w q →
      q = (w.1, w.2.1 - 1, w.2.2) ∨ q = (w.1, w.2.1 + 1, w.2.2) := by
  intro q hq hadj
  rcases adjc_cases hadj with ⟨e1,e2,e3⟩|⟨e1,e2,e3⟩|⟨e1,e2,e3⟩|⟨e1,e2,e3⟩|⟨e1,e2,e3⟩|⟨e1,e2,e3⟩
  case inr.inr.inl => exact Or.inl (v3_eq_mk e1 e2 e3)
  case inr.inr.inr.inl => exact Or.inr (v3_eq_mk e1 e2 e3)
  all_goals
    exfalso
    rcases free_classify inv hq with ⟨-, hq1, hq2, hq3⟩ | ⟨h1,h2,h3,-,-⟩ |
      ⟨h1,h2,h3,-,-⟩ | ⟨h1,h2,h3,-,-⟩ <;> omega

/-- A cell even exactly on the Z axis has FREE neighbours only at its
two Z-axis endpoints. -/
theorem wall_free_neighbors_Z {sx sy sz : Int} {S : CarveState}
    (inv : CarveInv sx sy sz S) {w : V3}
    (hpx : w.1 % 2 = 1) (hpy : w.2.1 % 2 = 1) (hpz : w.2.2 % 2 = 0) :
    ∀ q ∈ S.free, adjc w q →
      q = (w.1, w.2.1, w.2.2 - 1) ∨ q = (w.1, w.2.1, w.2.2 + 1) := by
  intro q hq hadj
  rcases adjc_cases hadj with ⟨e1,e2,e3⟩|⟨e1,e2,e3⟩|⟨e1,e2,e3⟩|⟨e1,e2,e3⟩|⟨e1,e2,e3⟩|⟨e1,e2,e3⟩
  case inr.inr.inr.inr.inl => exact Or.inl (v3_eq_mk e1 e2 e3)
  case inr.inr.inr.inr.inr => exact Or.inr (v3_eq_mk e1 e2 e3)
  all_goals
    exfalso
    rcases free_classify inv hq with ⟨-, hq1, hq2, hq3⟩ | ⟨h1,h2,h3,-,-⟩ |
      ⟨h1,h2,h3,-,-⟩ | ⟨h1,h2,h3,-,-⟩ <;> omega

/-- A cell with exactly one even coordinate is not yet FREE while one of
its two same-axis endpoints is unvisited. -/
theorem wall_not_free {sx sy sz : Int} {S : CarveState}
    (inv : CarveInv sx sy sz S) {w : V3}
    (hpar : (w.1 % 2 = 0 ∧ w.2.1 % 2 = 1 ∧ w.2.2 % 2 = 1 ∧
              ((w.1 - 1, w.2.1, w.2.2) ∉ S.visited ∨ (w.1 + 1, w.2.1, w.2.2) ∉ S.visited)) ∨
            (w.1 % 2 = 1 ∧ w.2.1 % 2 = 0 ∧ w.2.2 % 2 = 1 ∧
              ((w.1, w.2.1 - 1, w.2.2) ∉ S.visited ∨ (w.1, w.2.1 + 1, w.2.2) ∉ S.visited)) ∨
            (w.1 % 2 = 1 ∧ w.2.1 % 2 = 1 ∧ w.2.2 % 2 = 0 ∧
              ((w.1, w.2.1, w.2.2 - 1) ∉ S.visited ∨ (w.1, w.2.1, w.2.2 + 1) ∉ S.visited))) :
    w ∉ S.free := by
  intro hwf
  rcases free_classify inv hwf with ⟨-, hq1, hq2, hq3⟩ | ⟨h1,h2,h3,hm,hp⟩ |
      ⟨h1,h2,h3,hm,hp⟩ | ⟨h1,h2,h3,hm,hp⟩ <;>
    rcases hpar with ⟨g1,g2,g3,hside⟩ | ⟨g1,g2,g3,hside⟩ | ⟨g1,g2,g3,hside⟩
  · omega
  · omega
  · omega
  · rcases hside with hs | hs
    · exact hs hm
    · exact hs hp
  · omega
  · omega
  · omega
  · rcases hside with hs | hs
    · exact hs hm
    · exact hs hp
  · omega
  · omega
  · omega
  · rcases hside with hs | hs
    · exact hs hm
    · exact hs hp

/-- Adjacency is irreflexive. -/
theorem adjc_irrefl (p : V3) : ¬ adjc p p := by
  unfold adjc dist3; omega

/-- Generic carve extension: inserting the wall `w` (pendant on the
current room `c`) and the new room `n` (pendant on `w`) preserves the
carving invariant. -/
theorem carveInv_extend {sx sy sz : Int} {S : CarveState} {c n w : V3}
    (inv : CarveInv sx sy sz S)
    (hc_vis : c ∈ S.visited)
    (hn_odd : OddCell n) (hn_nvis : n ∉ S.visited) (hn_int : InInt sx sy sz n)
    (hw_int : InInt sx sy sz w)
    (hadj_cw : adjc c w) (hadj_wn : adjc w n)
    (hW : IsCarvedWall (insert n S.visited) w)
    (hw_nfree : w ∉ S.free)
    (honly_w : ∀ q ∈ S.free, adjc w q → q = c) :
    CarveInv sx sy sz
      ⟨insert n (insert w S.free), insert n S.visited, n :: S.stack, S.ctr + 6⟩ := by
  have hc_free : c ∈ S.free := inv.vis_free hc_vis
  have hn_nfree : n ∉ S.free := odd_unvisited_not_free inv hn_odd hn_nvis
  have hn_ne_w : n ≠ w := by
    intro he
    rw [he] at hadj_wn
    exact adjc_irrefl w hadj_wn
  have hn_not_iwf : n ∉ insert w S.free := by
    intro hmem
    rcases Finset.mem_insert.mp hmem with he | hf
    · exact hn_ne_w he
    · exact hn_nfree hf
  have honly_n : ∀ q ∈ insert w S.free, adjc n q → q = w := by
    intro q hq hadj
    rcases Finset.mem_insert.mp hq with he | hf
    · exact he
    · exact absurd hadj (odd_unvisited_no_free_neighbor inv hn_odd hn_nvis q hf)
  have up1 := pendant_unique_paths inv.start_free hc_free hw_nfree hadj_cw honly_w inv.upaths
  have up2 := pendant_unique_paths (Finset.mem_insert_of_mem inv.start_free)
    (Finset.mem_insert_self w S.free) hn_not_iwf hadj_wn honly_n up1
  refine ⟨?_, ?_, ?_, ?_, ?_, ?_, ?_, ?_⟩
  · exact Finset.mem_insert_of_mem (Finset.mem_insert_of_mem inv.start_free)
  · intro q hq
    rcases Finset.mem_insert.mp hq with he | hv
    · rw [he]; exact Finset.mem_insert_self n _
    · exact Finset.mem_insert_of_mem (Finset.mem_insert_of_mem (inv.vis_free hv))
  · intro q hq
    rcases Finset.mem_insert.mp hq with he | hv
    · rw [he]; exact hn_odd
    · exact inv.vis_odd q hv
  · intro q hq
    rcases Finset.mem_insert.mp hq with he | hv
    · rw [he]; exact hn_int
    · exact inv.vis_int q hv
  · intro q hq
    rcases Finset.mem_insert.mp hq with he | hq2
    · rw [he]; exact hn_int
    · rcases Finset.mem_insert.mp hq2 with he | hf
      · rw [he]; exact hw_int
      · exact inv.free_int q hf
  · intro q hq
    rcases Finset.mem_insert.mp hq with he | hq2
    · rw [he]; exact Or.inl (Finset.mem_insert_self n _)
    · rcases Finset.mem_insert.mp hq2 with he | hf
      · rw [he]; exact Or.inr hW
      · rcases inv.free_decomp q hf with hv | hwall
        · exact Or.inl (Finset.mem_insert_of_mem hv)
        · exact Or.inr (isCarvedWall_mono hwall)
  · intro q hq
    rcases List.mem_cons.mp hq with he | hst
    · rw [he]; exact Finset.mem_insert_self n _
    · exact Finset.mem_insert_of_mem (inv.stack_vis q hst)
  · exact up2

/-- Carving towards an unvisited two-step neighbour of the stack top
preserves the invariant (the wall midpoint and the new room are pendant
extensions of the carved tree). -/
theorem carveInv_carve {sx sy sz : Int} {S : CarveState} {c n : V3}
    (inv : CarveInv sx sy sz S)
    (hc_stack : c ∈ S.stack)
    (hn_mem : n ∈ neighbors_2step c.1 c.2.1 c.2.2 sx sy sz)
    (hn_nvis : n ∉ S.visited) :
    CarveInv sx sy sz
      ⟨insert n (insert ((c.1 + n.1) / 2, (c.2.1 + n.2.1) / 2, (c.2.2 + n.2.2) / 2) S.free),
       insert n S.visited, n :: S.stack, S.ctr + 6⟩ := by
  have hc_vis : c ∈ S.visited := inv.stack_vis c hc_stack
  obtain ⟨hc1, hc2, hc3⟩ := inv.vis_odd c hc_vis
  have hc_int := inv.vis_int c hc_vis
  obtain ⟨hn_int, d, hd, hn_eq⟩ := mem_neighbors_2step.mp hn_mem
  set w : V3 := ((c.1 + n.1) / 2, (c.2.1 + n.2.1) / 2, (c.2.2 + n.2.2) / 2) with hw
  have hwc : w.1 = (c.1 + n.1) / 2 ∧ w.2.1 = (c.2.1 + n.2.1) / 2 ∧
      w.2.2 = (c.2.2 + n.2.2) / 2 := by rw [hw]; exact ⟨rfl, rfl, rfl⟩
  obtain ⟨hwc1, hwc2, hwc3⟩ := hwc
  unfold InInt at hc_int hn_int
  simp only [DELTAS2, List.mem_cons, List.not_mem_nil, or_false] at hd
  rcases hd with rfl | rfl | rfl | rfl | rfl | rfl
  · -- d = (2,0,0)
    have hn1 : n.1 = c.1 + 2 := by rw [hn_eq]; simp [vadd3]
    have hn2 : n.2.1 = c.2.1 := by rw [hn_eq]; simp [vadd3]
    have hn3 : n.2.2 = c.2.2 := by rw [hn_eq]; simp [vadd3]
    have hn_odd : OddCell n := ⟨by omega, by omega, by omega⟩
    have he1 : (w.1 - 1, w.2.1, w.2.2) = c :=
      (v3_eq_mk (by omega) (by omega) (by omega)).symm
    have he2 : (w.1 + 1, w.2.1, w.2.2) = n :=
      (v3_eq_mk (by omega) (by omega) (by omega)).symm
    refine carveInv_extend inv hc_vis hn_odd hn_nvis hn_int
      (by unfold InInt; omega)
      (by unfold adjc dist3; omega) (by unfold adjc dist3; omega)
      (Or.inl ⟨by rw [he1]; exact Finset.mem_insert_of_mem hc_vis,
               by rw [he2]; exact Finset.mem_insert_self n S.visited⟩)
      (wall_not_free inv (Or.inl ⟨by omega, by omega, by omega,
        Or.inr (by rw [he2]; exact hn_nvis)⟩))
      ?_
    intro q hq hadj
    rcases wall_free_neighbors_X inv (by omega) (by omega) (by omega) q hq hadj with h | h
    · rw [he1] at h; exact h
    · rw [he2] at h
      exact absurd (h ▸ hq) (odd_unvisited_not_free inv hn_odd hn_nvis)
  · -- d = (-2,0,0)
    have hn1 : n.1 = c.1 - 2 := by rw [hn_eq]; simp [vadd3]; omega
    have hn2 : n.2.1 = c.2.1 := by rw [hn_eq]; simp [vadd3]
    have hn3 : n.2.2 = c.2.2 := by rw [hn_eq]; simp [vadd3]
    have hn_odd : OddCell n := ⟨by omega, by omega, by omega⟩
    have he1 : (w.1 - 1, w.2.1, w.2.2) = n :=
      (v3_eq_mk (by omega) (by omega) (by omega)).symm
    have he2 : (w.1 + 1, w.2.1, w.2.2) = c :=
      (v3_eq_mk (by omega) (by omega) (by omega)).symm
    refine carveInv_extend inv hc_vis hn_odd hn_nvis hn_int
      (by unfold InInt; omega)
      (by unfold adjc dist3; omega) (by unfold adjc dist3; omega)
      (Or.inl ⟨by rw [he1]; exact Finset.mem_insert_self n S.visited,
               by rw [he2]; exact Finset.mem_insert_of_mem hc_vis⟩)
      (wall_not_free inv (Or.inl ⟨by omega, by omega, by omega,
        Or.inl (by rw [he1]; exact hn_nvis)⟩))
      ?_
    intro q hq hadj
    rcases wall_free_neighbors_X inv (by omega) (by omega) (by omega) q hq hadj with h | h
    · rw [he1] at h
      exact absurd (h ▸ hq) (odd_unvisited_not_free inv hn_odd hn_nvis)
    · rw [he2] at h; exact h
  · -- d = (0,2,0)
    have hn1 : n.1 = c.1 := by rw [hn_eq]; simp [vadd3]
    have hn2 : n.2.1 = c.2.1 + 2 := by rw [hn_eq]; simp [vadd3]
    have hn3 : n.2.2 = c.2.2 := by rw [hn_eq]; simp [vadd3]
    have hn_odd : OddCell n := ⟨by omega, by omega, by omega⟩
    have he1 : (w.1, w.2.1 - 1, w.2.2) = c :=
      (v3_eq_mk (by omega) (by omega) (by omega)).symm
    have he2 : (w.1, w.2.1 + 1, w.2.2) = n :=
      (v3_eq_mk (by omega) (by omega) (by omega)).symm
    refine carveInv_extend inv hc_vis hn_odd hn_nvis hn_int
      (by unfold InInt; omega)
      (by unfold adjc dist3; omega) (by unfold adjc dist3; omega)
      (Or.inr (Or.inl ⟨by rw [he1]; exact Finset.mem_insert_of_mem hc_vis,
               by rw [he2]; exact Finset.mem_insert_self n S.visited⟩))
      (wall_not_free inv (Or.inr (Or.inl ⟨by omega, by omega, by omega,
        Or.inr (by rw [he2]; exact hn_nvis)⟩)))
      ?_
    intro q hq hadj
    rcases wall_free_neighbors_Y inv (by omega) (by omega) (by omega) q hq hadj with h | h
    · rw [he1] at h; exact h
    · rw [he2] at h
      exact absurd (h ▸ hq) (odd_unvisited_not_free inv hn_odd hn_nvis)
  · -- d = (0,-2,0)
    have hn1 : n.1 = c.1 := by rw [hn_eq]; simp [vadd3]
    have hn2 : n.2.1 = c.2.1 - 2 := by rw [hn_eq]; simp [vadd3]; omega
    have hn3 : n.2.2 = c.2.2 := by rw [hn_eq]; simp [vadd3]
    have hn_odd : OddCell n := ⟨by omega, by omega, by omega⟩
    have he1 : (w.1, w.2.1 - 1, w.2.2) = n :=
      (v3_eq_mk (by omega) (by omega) (by omega)).symm
    have he2 : (w.1, w.2.1 + 1, w.2.2) = c :=
      (v3_eq_mk (by omega) (by omega) (by omega)).symm
    refine carveInv_extend inv hc_vis hn_odd hn_nvis hn_int
      (by unfold InInt; omega)
      (by unfold adjc dist3; omega) (by unfold adjc dist3; omega)
      (Or.inr (Or.inl ⟨by rw [he1]; exact Finset.mem_insert_self n S.visited,
               by rw [he2]; exact Finset.mem_insert_of_mem hc_vis⟩))
      (wall_not_free inv (Or.inr (Or.inl ⟨by omega, by omega, by omega,
        Or.inl (by rw [he1]; exact hn_nvis)⟩)))
      ?_
    intro q hq hadj
    rcases wall_free_neighbors_Y inv (by omega) (by omega) (by omega) q hq hadj with h | h
    · rw [he1] at h
      exact absurd (h ▸ hq) (odd_unvisited_not_free inv hn_odd hn_nvis)
    · rw [he2] at h; exact h
  · -- d = (0,0,2)
    have hn1 : n.1 = c.1 := by rw [hn_eq]; simp [vadd3]
    have hn2 : n.2.1 = c.2.1 := by rw [hn_eq]; simp [vadd3]
    have hn3 : n.2.2 = c.2.2 + 2 := by rw [hn_eq]; simp [vadd3]
    have hn_odd : OddCell n := ⟨by omega, by omega, by omega⟩
    have he1 : (w.1, w.2.1, w.2.2 - 1) = c :=
      (v3_eq_mk (by omega) (by omega) (by omega)).symm
    have he2 : (w.1, w.2.1, w.2.2 + 1) = n :=
      (v3_eq_mk (by omega) (by omega) (by omega)).symm
    refine carveInv_extend inv hc_vis hn_odd hn_nvis hn_int
      (by unfold InInt; omega)
      (by unfold adjc dist3; omega) (by unfold adjc dist3; omega)
      (Or.inr (Or.inr ⟨by rw [he1]; exact Finset.mem_insert_of_mem hc_vis,
               by rw [he2]; exact Finset.mem_insert_self n S.visited⟩))
      (wall_not_free inv (Or.inr (Or.inr ⟨by omega, by omega, by omega,
        Or.inr (by rw [he2]; exact hn_nvis)⟩)))
      ?_
    intro q hq hadj
    rcases wall_free_neighbors_Z inv (by omega) (by omega) (by omega) q hq hadj with h | h
    · rw [he1] at h; exact h
    · rw [he2] at h
      exact absurd (h ▸ hq) (odd_unvisited_not_free inv hn_odd hn_nvis)
  · -- d = (0,0,-2)
    have hn1 : n.1 = c.1 := by rw [hn_eq]; simp [vadd3]
    have hn2 : n.2.1 = c.2.1 := by rw [hn_eq]; simp [vadd3]
    have hn3 : n.2.2 = c.2.2 - 2 := by rw [hn_eq]; simp [vadd3]; omega
    have hn_odd : OddCell n := ⟨by omega, by omega, by omega⟩
    have he1 : (w.1, w.2.1, w.2.2 - 1) = n :=
      (v3_eq_mk (by omega) (by omega) (by omega)).symm
    have he2 : (w.1, w.2.1, w.2.2 + 1) = c :=
      (v3_eq_mk (by omega) (by omega) (by omega)).symm
    refine carveInv_extend inv hc_vis hn_odd hn_nvis hn_int
      (by unfold InInt; omega)
      (by unfold adjc dist3; omega) (by unfold adjc dist3; omega)
      (Or.inr (Or.inr ⟨by rw [he1]; exact Finset.mem_insert_self n S.visited,
               by rw [he2]; exact Finset.mem_insert_of_mem hc_vis⟩))
      (wall_not_free inv (Or.inr (Or.inr ⟨by omega, by omega, by omega,
        Or.inl (by rw [he1]; exact hn_nvis)⟩)))
      ?_
    intro q hq hadj
    rcases wall_free_neighbors_Z inv (by omega) (by omega) (by omega) q hq hadj with h | h
    · rw [he1] at h
      exact absurd (h ▸ hq) (odd_unvisited_not_free inv hn_odd hn_nvis)
    · rw [he2] at h; exact h

/-- Popping the stack preserves the invariant. -/
theorem carveInv_pop {sx sy sz : Int} {S : CarveState} {c : V3} {rest : List V3}
    (inv : CarveInv sx sy sz S) (hst : S.stack = c :: rest) :
    CarveInv sx sy sz ⟨S.free, S.visited, rest, S.ctr + 6⟩ :=
  ⟨inv.start_free, inv.vis_free, inv.vis_odd, inv.vis_int, inv.free_int,
   inv.free_decomp, fun p hp => inv.stack_vis p (by rw [hst]; exact List.mem_cons_of_mem c hp),
   inv.upaths⟩

/-- The carving loop preserves the invariant, for any fuel. -/
theorem carveSteps_inv (sx sy sz : Int) (σ : Nat → Nat) (fuel : Nat) (S : CarveState)
    (inv : CarveInv sx sy sz S) : CarveInv sx sy sz (carveSteps sx sy sz σ fuel S) := by
  induction fuel generalizing S with
  | zero => exact inv
  | succ f ih =>
    rw [carveSteps]
    cases hst : S.stack with
    | nil => exact inv
    | cons c rest =>
      dsimp only
      cases hf : (shuffleWith σ (neighbors_2step c.1 c.2.1 c.2.2 sx sy sz).length S.ctr
          (neighbors_2step c.1 c.2.1 c.2.2 sx sy sz)).find? (fun n => decide (n ∉ S.visited)) with
      | some n =>
        dsimp only
        apply ih
        have hn_nvis : n ∉ S.visited := by
          have := List.find?_some hf
          simpa using this
        have hn_mem : n ∈ neighbors_2step c.1 c.2.1 c.2.2 sx sy sz :=
          mem_shuffleWith.mp (List.mem_of_find?_eq_some hf)
        have hres := carveInv_carve inv (by rw [hst]; exact List.mem_cons_self c rest) hn_mem hn_nvis
        rwa [hst] at hres
      | none =>
        dsimp only
        apply ih
        exact carveInv_pop inv hst

/-- The invariant holds at the initial carving state when every
odd-coerced dimension is at least 3. -/
theorem carveInv_start (sx sy sz : Int) (hx : 3 ≤ sx) (hy : 3 ≤ sy) (hz : 3 ≤ sz) :
    CarveInv sx sy sz ⟨{(1,1,1)}, {(1,1,1)}, [(1,1,1)], 0⟩ := by
  have hstart : ((1:Int),(1:Int),(1:Int)) ∈ ({((1:Int),(1:Int),(1:Int))} : Finset V3) :=
    Finset.mem_singleton_self _
  refine ⟨hstart, fun p hp => hp, ?_, ?_, ?_, ?_, ?_, ?_⟩
  · intro p hp
    rw [Finset.mem_singleton] at hp
    rw [hp]
    unfold OddCell
    dsimp only
    omega
  · intro p hp
    rw [Finset.mem_singleton] at hp
    rw [hp]
    unfold InInt
    dsimp only
    omega
  · intro p hp
    rw [Finset.mem_singleton] at hp
    rw [hp]
    unfold InInt
    dsimp only
    omega
  · intro p hp
    exact Or.inl hp
  · intro p hp
    rw [List.mem_singleton] at hp
    rw [hp]
    exact hstart
  · intro p hp
    rw [Finset.mem_singleton] at hp
    rw [hp]
    refine ⟨[(1,1,1)], isPathIn_singleton hstart, ?_⟩
    intro l hl
    exact isPathIn_self_eq hl

/-- The completed carving loop satisfies the invariant. -/
theorem carveLoop_inv (sx sy sz : Int) (σ : Nat → Nat)
    (hx : 3 ≤ sx) (hy : 3 ≤ sy) (hz : 3 ≤ sz) :
    CarveInv sx sy sz (carveLoop sx sy sz σ) :=
  carveSteps_inv sx sy sz σ _ _ (carveInv_start sx sy sz hx hy hz)

/-- An odd-coerced dimension at least 2 is at least 3. -/
theorem oddDim_ge_three {s : Int} (h : 2 ≤ oddDim s) : 3 ≤ oddDim s := by
  have := oddDim_odd s
  omega

/-- C5: every maze produced by `generate_maze` is perfect: between the
start cell and any FREE cell there is exactly one simple path through
FREE cells (the FREE cells form a connected, acyclic structure). -/
theorem C5_perfect_maze {sx sy sz : Int} {seed : Option Int} {g : Nat → Nat}
    {grid : Grid3} {start goal : V3}
    (h : generate_maze sx sy sz seed g = some (grid, start, goal)) :
    ∀ p ∈ grid.free, ∃! l : List V3, IsPathIn grid.free start p l := by
  obtain ⟨hstart, -, -, -, h2x, h2y, h2z, hfree, -⟩ := generate_maze_some h
  have inv := carveLoop_inv (oddDim sx) (oddDim sy) (oddDim sz) (seedStream seed g)
    (oddDim_ge_three h2x) (oddDim_ge_three h2y) (oddDim_ge_three h2z)
  rw [hstart, hfree]
  exact inv.upaths

/-- Witness for C5 on the concrete 3×3×5 maze. -/
theorem C5_perfect_maze_witness :
    (((1:Int),(1:Int),(1:Int)) ∈
      ((generate_maze 3 3 5 none sigma0).getD (⟨0,0,0,∅⟩, (0,0,0), (0,0,0))).1.free) ∧
    ∃! l : List V3, IsPathIn
      ((generate_maze 3 3 5 none sigma0).getD (⟨0,0,0,∅⟩, (0,0,0), (0,0,0))).1.free
      ((generate_maze 3 3 5 none sigma0).getD (⟨0,0,0,∅⟩, (0,0,0), (0,0,0))).2.1
      (1,1,1) l :=
  ⟨by decide, C5_perfect_maze (opt_eq_some_getD (generate_maze 3 3 5 none sigma0)
    (⟨0,0,0,∅⟩, (0,0,0), (0,0,0)) (by decide)) (1,1,1) (by decide)⟩

/-- Reversing a simple path gives a simple path back. -/
theorem isPathIn_reverse {f : Finset V3} {s t : V3} {l : List V3}
    (h : IsPathIn f s t l) : IsPathIn f t s l.reverse := by
  obtain ⟨h1, h2, h3, h4, h5⟩ := h
  refine ⟨?_, ?_, List.nodup_reverse.mpr h3, ?_, ?_⟩
  · rw [List.head?_reverse]; exact h2
  · rw [List.getLast?_reverse]; exact h1
  · intro p hp
    exact h4 p (List.mem_reverse.mp hp)
  · rw [List.chain'_reverse]
    exact List.Chain'.imp (fun a b hab => adjc_symm hab) h5

/-- Scan coverage: the goal scan enumerates exactly the interior. -/
theorem mem_scanCells {sx sy sz : Int} {p : V3} :
    p ∈ scanCells sx sy sz ↔ InInt sx sy sz p := by
  unfold scanCells
  rw [List.mem_flatMap]
  constructor
  · rintro ⟨xi, hxi, hp⟩
    rw [List.mem_flatMap] at hp
    obtain ⟨yi, hyi, hp⟩ := hp
    rw [List.mem_map] at hp
    obtain ⟨zi, hzi, hp⟩ := hp
    rw [List.mem_range] at hxi hyi hzi
    rw [← hp]
    unfold InInt
    dsimp only
    omega
  · intro h
    unfold InInt at h
    refine ⟨(p.1 - 1).toNat, ?_, ?_⟩
    · rw [List.mem_range]; omega
    rw [List.mem_flatMap]
    refine ⟨(p.2.1 - 1).toNat, ?_, ?_⟩
    · rw [List.mem_range]; omega
    rw [List.mem_map]
    refine ⟨(p.2.2 - 1).toNat, ?_, ?_⟩
    · rw [List.mem_range]; omega
    · exact (v3_eq_mk (by omega) (by omega) (by omega)).symm

/-- The running best distance never decreases along the goal scan. -/
theorem goalFold_mono (free : Finset V3) (start : V3) (cells : List V3) (acc : V3 × Int) :
    acc.2 ≤ (cells.foldl (goalStep free start) acc).2 := by
  induction cells generalizing acc with
  | nil => exact le_refl _
  | cons p rest ih =>
    refine le_trans ?_ (ih (goalStep free start acc p))
    unfold goalStep
    split
    · split
      · dsimp only; omega
      · exact le_refl _
    · exact le_refl _

/-- Every scanned FREE cell is dominated by the final best distance. -/
theorem goalFold_ub (free : Finset V3) (start : V3) (cells : List V3) (acc : V3 × Int) :
    ∀ q ∈ cells, q ∈ free →
      (dist3 q start : Int) ≤ (cells.foldl (goalStep free start) acc).2 := by
  induction cells generalizing acc with
  | nil => intro q hq; simp at hq
  | cons p rest ih =>
    intro q hq hqf
    rcases List.mem_cons.mp hq with rfl | hq2
    · refine le_trans ?_ (goalFold_mono free start rest (goalStep free start acc q))
      unfold goalStep
      rw [if_pos hqf]
      split
      · exact le_refl _
      · omega
    · exact ih (goalStep free start acc p) q hq2 hqf

/-- Coherence of the scan accumulator: either the best-so-far is a FREE
cell at its recorded distance, or nothing FREE has been scanned and the
accumulator is still the initial `(start, -1)`. -/
theorem goalFold_coherent (free : Finset V3) (start : V3) (cells : List V3) (acc : V3 × Int)
    (hacc : (acc.1 ∈ free ∧ acc.2 = (dist3 acc.1 start : Int)) ∨ (acc.2 = -1 ∧ acc.1 = start)) :
    ((cells.foldl (goalStep free start) acc).1 ∈ free ∧
      (cells.foldl (goalStep free start) acc).2 =
        (dist3 (cells.foldl (goalStep free start) acc).1 start : Int)) ∨
    ((cells.foldl (goalStep free start) acc).2 = -1 ∧
      (cells.foldl (goalStep free start) acc).1 = start) := by
  induction cells generalizing acc with
  | nil => exact hacc
  | cons p rest ih =>
    apply ih
    unfold goalStep
    split
    · rename_i hpf
      split
      · exact Or.inl ⟨hpf, rfl⟩
      · exact hacc
    · exact hacc

/-- Distance zero means equality. -/
theorem dist3_eq_zero {p q : V3} : dist3 p q = 0 ↔ p = q := by
  unfold dist3
  constructor
  · intro h
    exact v3_eq (by omega) (by omega) (by omega)
  · intro h
    rw [h]
    omega

/-- The selected goal is FREE and maximizes Manhattan distance among
scanned FREE cells, whenever the start itself is scanned and FREE. -/
theorem pickGoal_spec {free : Finset V3} {start : V3} {cells : List V3}
    (hs_mem : start ∈ cells) (hs_free : start ∈ free) :
    pickGoal free start cells ∈ free ∧
    ∀ q ∈ cells, q ∈ free →
      (dist3 q start : Int) ≤ (dist3 (pickGoal free start cells) start : Int) := by
  unfold pickGoal
  have hub := goalFold_ub free start cells (start, -1)
  have hco := goalFold_coherent free start cells (start, -1) (Or.inr ⟨rfl, rfl⟩)
  have hge : (0:Int) ≤ (cells.foldl (goalStep free start) (start, -1)).2 :=
    le_trans (by positivity) (hub start hs_mem hs_free)
  rcases hco with ⟨hfree, hval⟩ | ⟨hm1, -⟩
  · refine ⟨hfree, ?_⟩
    intro q hq hqf
    rw [← hval]
    exact hub q hq hqf
  · omega

/-- If some scanned FREE cell differs from the start, the selected goal
differs from the start. -/
theorem pickGoal_ne_start {free : Finset V3} {start : V3} {cells : List V3}
    (hs_mem : start ∈ cells) (hs_free : start ∈ free)
    {q : V3} (hq_mem : q ∈ cells) (hq_free : q ∈ free) (hq_ne : q ≠ start) :
    pickGoal free start cells ≠ start := by
  obtain ⟨-, hmax⟩ := pickGoal_spec hs_mem hs_free
  have hq1 : 1 ≤ dist3 q start := by
    rcases Nat.eq_zero_or_pos (dist3 q start) with h0 | h
    · exact absurd (dist3_eq_zero.mp h0) hq_ne
    · exact h
  intro he
  have := hmax q hq_mem hq_free
  rw [he] at this
  have hz : dist3 start start = 0 := dist3_eq_zero.mpr rfl
  omega

/-- The FREE set only grows along the carving loop. -/
theorem carveSteps_free_mono (sx sy sz : Int) (σ : Nat → Nat) (fuel : Nat) (S : CarveState) :
    S.free ⊆ (carveSteps sx sy sz σ fuel S).free := by
  induction fuel generalizing S with
  | zero => exact Finset.Subset.refl _
  | succ f ih =>
    rw [carveSteps]
    cases hst : S.stack with
    | nil => exact Finset.Subset.refl _
    | cons c rest =>
      dsimp only
      cases hf : (shuffleWith σ (neighbors_2step c.1 c.2.1 c.2.2 sx sy sz).length S.ctr
          (neighbors_2step c.1 c.2.1 c.2.2 sx sy sz)).find? (fun n => decide (n ∉ S.visited)) with
      | some n =>
        dsimp only
        refine Finset.Subset.trans ?_ (ih _)
        intro q hq
        exact Finset.mem_insert_of_mem (Finset.mem_insert_of_mem hq)
      | none =>
        dsimp only
        exact ih ⟨S.free, S.visited, rest, S.ctr + 6⟩

/-- With one odd-coerced axis of size at least 5 the very first loop
iteration carves, so the finished maze has more than one FREE cell. -/
theorem carveLoop_many_free {sx sy sz : Int} (σ : Nat → Nat)
    (hx : 3 ≤ sx) (hy : 3 ≤ sy) (hz : 3 ≤ sz)
    (h5 : 5 ≤ sx ∨ 5 ≤ sy ∨ 5 ≤ sz) :
    1 < (carveLoop sx sy sz σ).free.card := by
  have hm : ∃ m, m ∈ neighbors_2step 1 1 1 sx sy sz ∧ m ≠ ((1:Int),(1:Int),(1:Int)) := by
    rcases h5 with h5 | h5 | h5
    · refine ⟨(3,1,1), (@mem_neighbors_2step (1,1,1) (3,1,1) sx sy sz).mpr
        ⟨by unfold InInt; dsimp only; omega, (2,0,0), by decide, by decide⟩, by decide⟩
    · refine ⟨(1,3,1), (@mem_neighbors_2step (1,1,1) (1,3,1) sx sy sz).mpr
        ⟨by unfold InInt; dsimp only; omega, (0,2,0), by decide, by decide⟩, by decide⟩
    · refine ⟨(1,1,3), (@mem_neighbors_2step (1,1,1) (1,1,3) sx sy sz).mpr
        ⟨by unfold InInt; dsimp only; omega, (0,0,2), by decide, by decide⟩, by decide⟩
  obtain ⟨m, hm_mem, hm_ne⟩ := hm
  have hfind : ((shuffleWith σ (neighbors_2step 1 1 1 sx sy sz).length 0
      (neighbors_2step 1 1 1 sx sy sz)).find?
        (fun n => decide (n ∉ ({((1:Int),(1:Int),(1:Int))} : Finset V3)))).isSome := by
    rw [List.find?_isSome]
    refine ⟨m, mem_shuffleWith.mpr hm_mem, ?_⟩
    simpa using hm_ne
  obtain ⟨n0, hf⟩ := Option.isSome_iff_exists.mp hfind
  have hn0_mem : n0 ∈ neighbors_2step 1 1 1 sx sy sz :=
    mem_shuffleWith.mp (List.mem_of_find?_eq_some hf)
  have hn0_ne : n0 ≠ ((1:Int),(1:Int),(1:Int)) := by
    have := List.find?_some hf
    simpa using this
  unfold carveLoop carveFuel
  rw [carveSteps]
  dsimp only
  rw [hf]
  dsimp only
  set S1 : CarveState :=
    ⟨insert n0 (insert ((1 + n0.1) / 2, (1 + n0.2.1) / 2, (1 + n0.2.2) / 2)
        ({((1:Int),(1:Int),(1:Int))} : Finset V3)),
     insert n0 {(1,1,1)}, [n0, (1,1,1)], 6⟩ with hS1
  have hsub := carveSteps_free_mono sx sy sz σ (2 * (interiorCells sx sy sz).card) S1
  have hin1 : n0 ∈ (carveSteps sx sy sz σ (2 * (interiorCells sx sy sz).card) S1).free :=
    hsub (by rw [hS1]; exact Finset.mem_insert_self _ _)
  have hin2 : ((1:Int),(1:Int),(1:Int)) ∈
      (carveSteps sx sy sz σ (2 * (interiorCells sx sy sz).card) S1).free :=
    hsub (by
      rw [hS1]
      exact Finset.mem_insert_of_mem (Finset.mem_insert_of_mem (Finset.mem_singleton_self _)))
  exact Finset.one_lt_card.mpr ⟨n0, hin1, (1,1,1), hin2, hn0_ne⟩

/-- C6 (amended): generation always leaves cell `(1,1,1)` FREE, the
start and the goal are FREE and mutually reachable through FREE cells,
and goal ≠ start whenever the maze has more than one FREE cell; more
than one FREE cell is guaranteed when, after odd-normalization, some
axis is at least 5 (not already when every axis is merely ≥ 3: the
3×3×3 maze has a single FREE cell). -/
theorem C6_goal_guarantees {sx sy sz : Int} {seed : Option Int} {g : Nat → Nat}
    {grid : Grid3} {start goal : V3}
    (h : generate_maze sx sy sz seed g = some (grid, start, goal)) :
    start = (1,1,1) ∧
    ((1:Int),(1:Int),(1:Int)) ∈ grid.free ∧
    goal ∈ grid.free ∧
    (∃ l : List V3, IsPathIn grid.free start goal l) ∧
    (∃ l : List V3, IsPathIn grid.free goal start l) ∧
    (1 < grid.free.card → goal ≠ start) ∧
    ((5 ≤ oddDim sx ∨ 5 ≤ oddDim sy ∨ 5 ≤ oddDim sz) → 1 < grid.free.card) := by
  obtain ⟨hstart, -, -, -, h2x, h2y, h2z, hfree, hgoal⟩ := generate_maze_some h
  have h3x := oddDim_ge_three h2x
  have h3y := oddDim_ge_three h2y
  have h3z := oddDim_ge_three h2z
  have inv := carveLoop_inv (oddDim sx) (oddDim sy) (oddDim sz) (seedStream seed g) h3x h3y h3z
  have hsf : ((1:Int),(1:Int),(1:Int)) ∈ grid.free := by rw [hfree]; exact inv.start_free
  have hs_scan : ((1:Int),(1:Int),(1:Int)) ∈ scanCells (oddDim sx) (oddDim sy) (oddDim sz) := by
    rw [mem_scanCells]
    unfold InInt
    dsimp only
    omega
  have hpg := @pickGoal_spec grid.free (1,1,1) (scanCells (oddDim sx) (oddDim sy) (oddDim sz)) hs_scan hsf
  have hgf : goal ∈ grid.free := by rw [hgoal]; exact hpg.1
  have hpath : ∃ l : List V3, IsPathIn grid.free (1,1,1) goal l := by
    obtain ⟨l, hl, -⟩ := C5_perfect_maze h goal hgf
    rw [hstart] at hl
    exact ⟨l, hl⟩
  refine ⟨hstart, hsf, hgf, ?_, ?_, ?_, ?_⟩
  · rw [hstart]; exact hpath
  · obtain ⟨l, hl⟩ := hpath
    rw [hstart]
    exact ⟨l.reverse, isPathIn_reverse hl⟩
  · intro hcard
    obtain ⟨q, hq_free, hq_ne⟩ := Finset.exists_ne_of_one_lt_card hcard (1,1,1)
    have hq_scan : q ∈ scanCells (oddDim sx) (oddDim sy) (oddDim sz) := by
      rw [mem_scanCells]
      have := inv.free_int q (by rw [← hfree]; exact hq_free)
      exact this
    rw [hstart, hgoal]
    exact pickGoal_ne_start hs_scan hsf hq_scan hq_free hq_ne
  · intro h5
    rw [hfree]
    exact carveLoop_many_free (seedStream seed g) h3x h3y h3z h5

/-- Witness for C6 on the concrete 3×3×5 maze (the z axis coerces to 5,
so the maze has several FREE cells and a goal distinct from the start). -/
theorem C6_goal_guarantees_witness :
    (5 ≤ oddDim 3 ∨ 5 ≤ oddDim 3 ∨ 5 ≤ oddDim 5) ∧
    ((generate_maze 3 3 5 none sigma0).getD (⟨0,0,0,∅⟩, (0,0,0), (0,0,0))).2.1 = (1,1,1) ∧
    1 < ((generate_maze 3 3 5 none sigma0).getD (⟨0,0,0,∅⟩, (0,0,0), (0,0,0))).1.free.card ∧
    ((generate_maze 3 3 5 none sigma0).getD (⟨0,0,0,∅⟩, (0,0,0), (0,0,0))).2.2 ≠
      ((generate_maze 3 3 5 none sigma0).getD (⟨0,0,0,∅⟩, (0,0,0), (0,0,0))).2.1 := by
  set r := (generate_maze 3 3 5 none sigma0).getD (⟨0,0,0,∅⟩, (0,0,0), (0,0,0)) with hr
  have hgen : generate_maze 3 3 5 none sigma0 = some (r.1, r.2.1, r.2.2) := by
    rw [hr]
    exact opt_eq_some_getD (generate_maze 3 3 5 none sigma0)
      (⟨0,0,0,∅⟩, (0,0,0), (0,0,0)) (by decide)
  have hc := C6_goal_guarantees hgen
  have h5 : 5 ≤ oddDim 3 ∨ 5 ≤ oddDim 3 ∨ 5 ≤ oddDim 5 := by
    right; right; decide
  have hcard := hc.2.2.2.2.2.2 h5
  have hne := hc.2.2.2.2.2.1 hcard
  refine ⟨h5, hc.1, hcard, ?_⟩
  rw [hc.1]
  rw [hc.1] at hne
  exact hne

/-- Counterexample to C6 as stated: with every axis ≥ 3 after
odd-normalization (3×3×3), the carved maze has exactly one FREE cell
and the goal equals the start. -/
theorem C6_counterexample :
    (∀ s ∈ [(3:Int), 3, 3], 3 ≤ oddDim s) ∧
    ((generate_maze 3 3 3 none sigma0).map
      (fun r => (r.1.free.card, decide (r.2.2 = r.2.1)))) = some (1, true) := by
  constructor
  · intro s hs
    rcases List.mem_cons.mp hs with rfl | hs
    · decide
    · rcases List.mem_cons.mp hs with rfl | hs
      · decide
      · rcases List.mem_cons.mp hs with rfl | hs
        · decide
        · simp at hs
  · decide

/-- The interior Finset coincides with the interior predicate. -/
theorem mem_interiorCells {sx sy sz : Int} {p : V3} :
    p ∈ interiorCells sx sy sz ↔ InInt sx sy sz p := by
  unfold interiorCells InInt
  obtain ⟨px, py, pz⟩ := p
  simp [Finset.mem_product, Finset.mem_Icc]
  omega

/-- Model adequacy of the fuel: whenever the fuel dominates twice the
number of unvisited interior cells plus the stack height, the loop
drains its stack (each iteration either newly visits an interior cell
or pops), exactly as Python's unbounded `while stack:` loop does. -/
theorem carveSteps_drains (sx sy sz : Int) (σ : Nat → Nat) :
    ∀ (fuel : Nat) (S : CarveState),
      2 * ((interiorCells sx sy sz).filter (fun p => p ∉ S.visited)).card +
        S.stack.length ≤ fuel →
      (carveSteps sx sy sz σ fuel S).stack = [] := by
  intro fuel
  induction fuel with
  | zero =>
    intro S hle
    rw [carveSteps]
    cases hst : S.stack with
    | nil => rfl
    | cons c rest => rw [hst] at hle; simp at hle
  | succ f ih =>
    intro S hle
    rw [carveSteps]
    cases hst : S.stack with
    | nil => dsimp only; exact hst
    | cons c rest =>
      rw [hst] at hle
      dsimp only
      cases hf : (shuffleWith σ (neighbors_2step c.1 c.2.1 c.2.2 sx sy sz).length S.ctr
          (neighbors_2step c.1 c.2.1 c.2.2 sx sy sz)).find? (fun n => decide (n ∉ S.visited)) with
      | some n =>
        dsimp only
        apply ih
        have hn_nvis : n ∉ S.visited := by
          have := List.find?_some hf
          simpa using this
        have hn_mem : n ∈ neighbors_2step c.1 c.2.1 c.2.2 sx sy sz :=
          mem_shuffleWith.mp (List.mem_of_find?_eq_some hf)
        have hn_int : n ∈ interiorCells sx sy sz :=
          mem_interiorCells.mpr (mem_neighbors_2step.mp hn_mem).1
        have hcard : ((interiorCells sx sy sz).filter (fun p => p ∉ insert n S.visited)).card + 1 ≤
            ((interiorCells sx sy sz).filter (fun p => p ∉ S.visited)).card := by
          have hsub : (interiorCells sx sy sz).filter (fun p => p ∉ insert n S.visited) ⊆
              ((interiorCells sx sy sz).filter (fun p => p ∉ S.visited)).erase n := by
            intro q hq
            rw [Finset.mem_filter] at hq
            rw [Finset.mem_erase, Finset.mem_filter]
            have hq2 := hq.2
            rw [Finset.mem_insert] at hq2
            push_neg at hq2
            exact ⟨hq2.1, hq.1, hq2.2⟩
          have hn_f : n ∈ (interiorCells sx sy sz).filter (fun p => p ∉ S.visited) :=
            Finset.mem_filter.mpr ⟨hn_int, hn_nvis⟩
          calc ((interiorCells sx sy sz).filter (fun p => p ∉ insert n S.visited)).card + 1
              ≤ (((interiorCells sx sy sz).filter (fun p => p ∉ S.visited)).erase n).card + 1 :=
                Nat.add_le_add_right (Finset.card_le_card hsub) 1
            _ = ((interiorCells sx sy sz).filter (fun p => p ∉ S.visited)).card :=
                Finset.card_erase_add_one hn_f
        simp only [List.length_cons] at hle ⊢
        omega
      | none =>
        dsimp only
        apply ih
        dsimp only
        simp only [List.length_cons] at hle
        omega

/-- The completed carving loop has an empty stack: the fuel chosen in
the embedding always suffices, so `carveLoop` computes the same final
state as the unbounded Python loop. -/
theorem carveLoop_drains (sx sy sz : Int) (σ : Nat → Nat) :
    (carveLoop sx sy sz σ).stack = [] := by
  unfold carveLoop carveFuel
  apply carveSteps_drains
  have hsub : ((interiorCells sx sy sz).filter
      (fun p => p ∉ ({((1:Int),(1:Int),(1:Int))} : Finset V3))).card ≤
      (interiorCells sx sy sz).card :=
    Finset.card_le_card (Finset.filter_subset _ _)
  simp only [List.length_singleton]
  omega
